import Mathlib

/-!
Verification of the Senial_SOLID_IS repository (a pedagogical signal
acquisition / processing / visualization / persistence pipeline written in
Python) against its natural-language specification.

The development shallowly embeds the relevant Python code:

* `src/dominio_senial/senial.py` — the señal containers `SenialLista`,
  `SenialPila` and `SenialCola` (a circular-buffer FIFO queue);
* `src/procesamiento_senial/procesador.py` — `ProcesadorAmplificador`;
* `src/persistidor_senial/mapeador.py` — the reflective text mapper
  (`ir_a_persistidor` / `venir_desde_persistidor`);
* `src/persistidor_senial/contexto.py` — `ContextoPickle` and
  `ContextoArchivo`;
* `src/lanzador/lanzador.py` — the stage order of `Lanzador.ejecutar`.

Python strings are modelled as `List Char`, Python `int` as `Int` (or `Nat`
for counters that the code keeps non-negative), and Python `float` as `Rat`.
The pair of functions `str`/`int` (and `str`/`float`) applied to numbers is
modelled by an executable decimal renderer and a matching parser; the
properties the code relies on — the parser inverts the renderer, renders are
non-empty and contain no separator characters — are exactly the guarantees
CPython provides for `repr`/`int`/`float` on these values, and are proved
below for the model.
-/

/-! ### Decimal rendering and parsing of numbers (model of Python str/int/float) -/

def esDigito (c : Char) : Bool := ('0' ≤ c) && (c ≤ '9')

def digitoChar : Nat → Char
  | 0 => '0'
  | 1 => '1'
  | 2 => '2'
  | 3 => '3'
  | 4 => '4'
  | 5 => '5'
  | 6 => '6'
  | 7 => '7'
  | 8 => '8'
  | _ => '9'

def valorDigito (c : Char) : Nat := c.toNat - 48

/-- Fuel-driven decimal rendering of a natural number (most significant digit
first), total and structurally recursive so that it evaluates by `decide`. -/
def natRenderAux : Nat → Nat → List Char
  | 0, _ => []
  | fuel + 1, n => if n < 10 then [digitoChar n] else natRenderAux fuel (n / 10) ++ [digitoChar (n % 10)]

/-- Model of Python `str` on a non-negative `int`. -/
def natRender (n : Nat) : List Char := natRenderAux (n + 1) n

def natParseVal (l : List Char) : Nat := l.foldl (fun a c => a * 10 + valorDigito c) 0

/-- Model of Python `int(s)` for non-negative decimal strings: succeeds exactly
on non-empty all-digit strings (`ValueError`, i.e. `none`, otherwise). -/
def natParse (l : List Char) : Option Nat :=
  if l ≠ [] ∧ l.all esDigito then some (natParseVal l) else none

/-- Model of Python `str` on an `int`. -/
def intRender (n : Int) : List Char :=
  if n < 0 then '-' :: natRender n.natAbs else natRender n.natAbs

/-- Model of Python `int(s)`: optional leading minus sign, then digits. -/
def intParse (l : List Char) : Option Int :=
  match l with
  | [] => none
  | c :: r =>
    if c = '-' then (natParse r).map (fun m => -(m : Int))
    else (natParse (c :: r)).map (fun m => (m : Int))

theorem natRenderAux_irrel (n : Nat) : ∀ f g : Nat, n < f → n < g →
    natRenderAux f n = natRenderAux g n := by
  induction n using Nat.strong_induction_on with
  | _ n ih =>
    intro f g hf hg
    match f, g with
    | f + 1, g + 1 =>
      simp only [natRenderAux]
      split
      · rfl
      · rename_i h10
        rw [ih (n / 10) (by omega) f g (by omega) (by omega)]

theorem natRender_lt (n : Nat) (h : n < 10) : natRender n = [digitoChar n] := by
  simp [natRender, natRenderAux, h]

theorem natRender_ge (n : Nat) (h : 10 ≤ n) :
    natRender n = natRender (n / 10) ++ [digitoChar (n % 10)] := by
  have h2 : ¬ n < 10 := by omega
  have h3 : natRenderAux (n + 1) n = natRenderAux n (n / 10) ++ [digitoChar (n % 10)] := by
    simp [natRenderAux, h2]
  show natRenderAux (n + 1) n = _
  rw [h3, natRenderAux_irrel (n / 10) n (n / 10 + 1) (by omega) (by omega)]
  rfl

theorem valorDigito_digitoChar (n : Nat) (h : n < 10) : valorDigito (digitoChar n) = n := by
  interval_cases n <;> rfl

theorem esDigito_digitoChar (n : Nat) (h : n < 10) : esDigito (digitoChar n) = true := by
  interval_cases n <;> rfl

theorem natRender_digitos (n : Nat) : ∀ c ∈ natRender n, esDigito c = true := by
  induction n using Nat.strong_induction_on with
  | _ n ih =>
    by_cases h : n < 10
    · rw [natRender_lt n h]
      intro c hc
      simp at hc
      subst hc
      exact esDigito_digitoChar n h
    · rw [natRender_ge n (by omega)]
      intro c hc
      rcases List.mem_append.mp hc with h1 | h1
      · exact ih (n / 10) (by omega) c h1
      · simp at h1
        subst h1
        exact esDigito_digitoChar (n % 10) (by omega)

theorem natRender_ne_nil (n : Nat) : natRender n ≠ [] := by
  by_cases h : n < 10
  · rw [natRender_lt n h]; simp
  · rw [natRender_ge n (by omega)]; simp

theorem natParseVal_append (a : List Char) (c : Char) :
    natParseVal (a ++ [c]) = natParseVal a * 10 + valorDigito c := by
  simp [natParseVal, List.foldl_append]

theorem natParseVal_natRender (n : Nat) : natParseVal (natRender n) = n := by
  induction n using Nat.strong_induction_on with
  | _ n ih =>
    by_cases h : n < 10
    · rw [natRender_lt n h]
      simp [natParseVal, valorDigito_digitoChar n h]
    · rw [natRender_ge n (by omega), natParseVal_append,
        ih (n / 10) (by omega), valorDigito_digitoChar (n % 10) (by omega)]
      omega

theorem natParse_natRender (n : Nat) : natParse (natRender n) = some n := by
  have h1 : (natRender n ≠ [] ∧ (natRender n).all esDigito) := by
    refine ⟨natRender_ne_nil n, ?_⟩
    rw [List.all_eq_true]
    exact natRender_digitos n
  simp only [natParse, h1, if_pos, natParseVal_natRender]
  simp [h1, natParseVal_natRender]

theorem esDigito_ne_menos {c : Char} (h : esDigito c = true) : c ≠ '-' := by
  intro he; subst he; simp [esDigito] at h

theorem intParse_intRender (n : Int) : intParse (intRender n) = some n := by
  by_cases h : n < 0
  · simp only [intRender, if_pos h, intParse, if_pos rfl, natParse_natRender]
    have h2 : -((n.natAbs : Nat) : Int) = n := by omega
    exact congrArg some h2
  · simp only [intRender, if_neg h]
    obtain ⟨c, r, hcr⟩ : ∃ c r, natRender n.natAbs = c :: r := by
      cases hn : natRender n.natAbs with
      | nil => exact absurd hn (natRender_ne_nil _)
      | cons c r => exact ⟨c, r, rfl⟩
    have hdig : esDigito c = true := by
      apply natRender_digitos n.natAbs
      rw [hcr]; simp
    rw [hcr]
    simp only [intParse, if_neg (esDigito_ne_menos hdig), ← hcr, natParse_natRender]
    have h2 : ((n.natAbs : Nat) : Int) = n := by omega
    simp [h2]

/-! ### Splitting on a separator character (model of Python str.split) -/

def splitOnChar (c : Char) : List Char → List (List Char)
  | [] => [[]]
  | x :: xs =>
    match splitOnChar c xs with
    | [] => [[]]
    | h :: t => if x = c then [] :: h :: t else (x :: h) :: t

theorem splitOnChar_ne_nil (c : Char) (l : List Char) : splitOnChar c l ≠ [] := by
  cases l with
  | nil => simp [splitOnChar]
  | cons x xs =>
    simp only [splitOnChar]
    cases splitOnChar c xs with
    | nil => simp
    | cons h t =>
      by_cases hx : x = c <;> simp [hx]

theorem splitOnChar_sin (c : Char) (l : List Char) (h : c ∉ l) :
    splitOnChar c l = [l] := by
  induction l with
  | nil => rfl
  | cons x xs ih =>
    have hx : x ≠ c := by intro he; exact h (by simp [he])
    have hxs : c ∉ xs := by intro hm; exact h (by simp [hm])
    simp only [splitOnChar, ih hxs]
    simp [hx]

theorem splitOnChar_parte (c : Char) (a b : List Char) (h : c ∉ a) :
    splitOnChar c (a ++ c :: b) = a :: splitOnChar c b := by
  induction a with
  | nil =>
    simp only [List.nil_append, splitOnChar]
    cases hs : splitOnChar c b with
    | nil => exact absurd hs (splitOnChar_ne_nil c b)
    | cons h t => simp
  | cons x xs ih =>
    have hx : x ≠ c := by intro he; exact h (by simp [he])
    have hxs : c ∉ xs := by intro hm; exact h (by simp [hm])
    rw [List.cons_append]
    simp only [splitOnChar]
    rw [ih hxs]
    simp [hx]

/-! ### Model of Python str/float on floats, as exact rationals -/

/-- Model of Python `str` on a `float` value: an exact decimal-free rendering
`num/den` of the rational. The properties relied upon (a matching parser
inverts it, the result is non-empty and avoids the separator characters
`,` `:` `\n` `>`) mirror CPython's guarantees for `repr` on floats. -/
def ratRender (q : Rat) : List Char := intRender q.num ++ '/' :: natRender q.den

/-- Model of Python `float(s)` (matching `ratRender`): `none` models
`ValueError`. -/
def ratParse (l : List Char) : Option Rat :=
  match splitOnChar '/' l with
  | [a] => (intParse a).map (fun n => (n : Rat))
  | [a, b] =>
    match intParse a, natParse b with
    | some n, some d => if d = 0 then none else some ((n : Rat) / (d : Rat))
    | _, _ => none
  | _ => none

theorem mem_intRender (n : Int) (c : Char) (h : c ∈ intRender n) :
    esDigito c = true ∨ c = '-' := by
  by_cases hn : n < 0
  · simp only [intRender, if_pos hn] at h
    rcases List.mem_cons.mp h with h1 | h1
    · exact Or.inr h1
    · exact Or.inl (natRender_digitos _ c h1)
  · simp only [intRender, if_neg hn] at h
    exact Or.inl (natRender_digitos _ c h)

theorem ratParse_ratRender (q : Rat) : ratParse (ratRender q) = some q := by
  have hslash : '/' ∉ intRender q.num := by
    intro hm
    rcases mem_intRender q.num '/' hm with h1 | h1
    · simp [esDigito] at h1
    · simp at h1
  have hslash2 : '/' ∉ natRender q.den := by
    intro hm
    have := natRender_digitos q.den '/' hm
    simp [esDigito] at this
  rw [ratRender]
  simp only [ratParse, splitOnChar_parte '/' _ _ hslash, splitOnChar_sin '/' _ hslash2]
  simp only [intParse_intRender, natParse_natRender]
  have hden : q.den ≠ 0 := q.den_nz
  simp only [if_neg hden]
  congr 1
  exact_mod_cast Rat.num_div_den q

/-! ### The señal containers (src/dominio_senial/senial.py)

Each Python class is a Lean structure holding the instance fields in the
order `__init__` creates them (`SenialBase.__init__` first, then the
subclass); mutating methods become functions from the structure to an updated
structure, `sacar_valor` additionally returns the extracted `Optional[float]`.
The metadata fields (`fecha_adquisicion` is `None` or, once the launcher sets
it, a date whose `str()` we carry as the character list; `id` is a possibly
negative Python `int`) are included because the text persistence serializes
every instance attribute. -/

/-- `SenialLista` (senial.py:168-260): dynamic list señal. -/
structure SenialLista where
  fecha_adquisicion : Option (List Char)
  cantidad : Nat
  tamanio : Nat
  comentario : List Char
  id : Int
  valores : List Rat
deriving DecidableEq

/-- `SenialLista(tamanio)` constructor (default argument in Python is 10). -/
def SenialLista.crear (tamanio : Nat) : SenialLista :=
  ⟨none, 0, tamanio, [], 0, []⟩

/-- `SenialLista.poner_valor`: refuses (prints an error and returns) when
`cantidad >= tamanio`, otherwise appends and increments `cantidad`. -/
def SenialLista.poner_valor (s : SenialLista) (valor : Rat) : SenialLista :=
  if s.tamanio ≤ s.cantidad then s
  else { s with valores := s.valores ++ [valor], cantidad := s.cantidad + 1 }

/-- `SenialLista.sacar_valor`: returns `None` when `cantidad == 0`, otherwise
decrements `cantidad` and pops the last element. -/
def SenialLista.sacar_valor (s : SenialLista) : Option Rat × SenialLista :=
  if s.cantidad = 0 then (none, s)
  else (s.valores.getLast?, { s with valores := s.valores.dropLast, cantidad := s.cantidad - 1 })

/-- `SenialLista.limpiar`: clears the list and resets `cantidad`. -/
def SenialLista.limpiar (s : SenialLista) : SenialLista :=
  { s with valores := [], cantidad := 0 }

/-- `SenialLista.obtener_valor`: direct index access, `None` on `IndexError`
(the claims only exercise non-negative indices, so the `Nat` index is
faithful; Python additionally accepts negative indices). -/
def SenialLista.obtener_valor (s : SenialLista) (indice : Nat) : Option Rat :=
  s.valores[indice]?

/-- `SenialLista.obtener_tamanio`: `len(self._valores)`. -/
def SenialLista.obtener_tamanio (s : SenialLista) : Nat := s.valores.length

/-- `SenialPila` (senial.py:263-330): LIFO señal; its four methods have
exactly the same bodies as `SenialLista`'s. -/
structure SenialPila where
  fecha_adquisicion : Option (List Char)
  cantidad : Nat
  tamanio : Nat
  comentario : List Char
  id : Int
  valores : List Rat
deriving DecidableEq

def SenialPila.crear (tamanio : Nat) : SenialPila :=
  ⟨none, 0, tamanio, [], 0, []⟩

def SenialPila.poner_valor (s : SenialPila) (valor : Rat) : SenialPila :=
  if s.tamanio ≤ s.cantidad then s
  else { s with valores := s.valores ++ [valor], cantidad := s.cantidad + 1 }

def SenialPila.sacar_valor (s : SenialPila) : Option Rat × SenialPila :=
  if s.cantidad = 0 then (none, s)
  else (s.valores.getLast?, { s with valores := s.valores.dropLast, cantidad := s.cantidad - 1 })

def SenialPila.limpiar (s : SenialPila) : SenialPila :=
  { s with valores := [], cantidad := 0 }

def SenialPila.obtener_valor (s : SenialPila) (indice : Nat) : Option Rat :=
  s.valores[indice]?

def SenialPila.obtener_tamanio (s : SenialPila) : Nat := s.valores.length

/-- `SenialCola` (senial.py:333-433): FIFO señal over a circular array of
fixed length `tamanio` whose free slots hold `None`. -/
structure SenialCola where
  fecha_adquisicion : Option (List Char)
  cantidad : Nat
  tamanio : Nat
  comentario : List Char
  id : Int
  cabeza : Nat
  cola : Nat
  valores : List (Option Rat)
deriving DecidableEq

/-- `SenialCola(tamanio)`: `_cabeza = _cola = 0`, `_valores = [None] * tamanio`. -/
def SenialCola.crear (tamanio : Nat) : SenialCola :=
  ⟨none, 0, tamanio, [], 0, 0, 0, List.replicate tamanio none⟩

/-- `SenialCola.poner_valor`: refuses when full; otherwise writes at `_cola`,
advances `_cola` circularly and increments `_cantidad`. -/
def SenialCola.poner_valor (s : SenialCola) (valor : Rat) : SenialCola :=
  if s.tamanio ≤ s.cantidad then s
  else { s with valores := s.valores.set s.cola (some valor),
                cola := (s.cola + 1) % s.tamanio,
                cantidad := s.cantidad + 1 }

/-- `SenialCola.sacar_valor`: `None` when empty; otherwise returns the slot at
`_cabeza`, clears it to `None`, advances `_cabeza` circularly and decrements
`_cantidad`. -/
def SenialCola.sacar_valor (s : SenialCola) : Option Rat × SenialCola :=
  if s.cantidad = 0 then (none, s)
  else ((s.valores[s.cabeza]?).getD none,
        { s with valores := s.valores.set s.cabeza none,
                 cabeza := (s.cabeza + 1) % s.tamanio,
                 cantidad := s.cantidad - 1 })

/-- `SenialCola.limpiar`: reinitializes the circular array and both pointers. -/
def SenialCola.limpiar (s : SenialCola) : SenialCola :=
  { s with valores := List.replicate s.tamanio none, cabeza := 0, cola := 0, cantidad := 0 }

/-- `SenialCola.obtener_valor`: logical index from `_cabeza`; out of range
(`indice < 0 or indice >= cantidad`) yields `None`. -/
def SenialCola.obtener_valor (s : SenialCola) (indice : Nat) : Option Rat :=
  if s.cantidad ≤ indice then none
  else (s.valores[(s.cabeza + indice) % s.tamanio]?).getD none

/-- `SenialCola.obtener_tamanio`: returns `_cantidad`. -/
def SenialCola.obtener_tamanio (s : SenialCola) : Nat := s.cantidad

/-! ### C1 — SenialCola refines a FIFO queue -/

/-- One client call on a `SenialCola` (the two mutating methods the claim
interleaves). -/
inductive OpCola where
  | poner (valor : Rat)
  | sacar
deriving DecidableEq

/-- Run a call sequence against a `SenialCola`, collecting the values returned
by the `sacar_valor` calls in order. -/
def SenialCola.ejecutarOps : SenialCola → List OpCola → List (Option Rat) × SenialCola
  | s, [] => ([], s)
  | s, .poner v :: ops => SenialCola.ejecutarOps (s.poner_valor v) ops
  | s, .sacar :: ops =>
    let r := s.sacar_valor
    let resto := SenialCola.ejecutarOps r.2 ops
    (r.1 :: resto.1, resto.2)

/-- The abstract first-in first-out queue of the claim's words: insertion
appends at the back, extraction returns the front (`none` exactly when the
queue is empty). `SenialCola` is compared against this specification. -/
def fifoEjecutar : List Rat → List OpCola → List (Option Rat) × List Rat
  | l, [] => ([], l)
  | l, .poner v :: ops => fifoEjecutar (l ++ [v]) ops
  | l, .sacar :: ops =>
    let resto := fifoEjecutar l.tail ops
    (l.head? :: resto.1, resto.2)

/-- The claim's side condition: along the sequence the element count never
exceeds the capacity, i.e. every insertion happens strictly below capacity. -/
def opsValidas (cap : Nat) : Nat → List OpCola → Bool
  | _, [] => true
  | n, .poner _ :: ops => decide (n < cap) && opsValidas cap (n + 1) ops
  | n, .sacar :: ops => opsValidas cap (n - 1) ops

/-- Coupling invariant: the circular buffer `s` represents the abstract queue
contents `l` (read clockwise from `_cabeza`). -/
def SenialCola.Rep (s : SenialCola) (l : List Rat) : Prop :=
  s.valores.length = s.tamanio ∧
  s.cantidad = l.length ∧
  l.length ≤ s.tamanio ∧
  (s.cabeza < s.tamanio ∨ (s.tamanio = 0 ∧ s.cabeza = 0)) ∧
  s.cola = (s.cabeza + l.length) % s.tamanio ∧
  ∀ i, (h : i < l.length) → s.valores[(s.cabeza + i) % s.tamanio]? = some (some l[i])

theorem mod_indice_inj (m a i j : Nat) (hi : i < m) (hj : j < m)
    (h : (a + i) % m = (a + j) % m) : i = j := by
  have h1 : i ≡ j [MOD m] := Nat.ModEq.add_left_cancel' a h
  rwa [Nat.ModEq, Nat.mod_eq_of_lt hi, Nat.mod_eq_of_lt hj] at h1

theorem SenialCola.Rep_crear (tam : Nat) : (SenialCola.crear tam).Rep [] := by
  refine ⟨by simp [crear], rfl, by simp, by simp [crear]; omega, by simp [crear], ?_⟩
  intro i h
  simp at h

theorem SenialCola.tamanio_poner (s : SenialCola) (v : Rat) :
    (s.poner_valor v).tamanio = s.tamanio := by
  unfold poner_valor; split <;> rfl

theorem SenialCola.tamanio_sacar (s : SenialCola) :
    (s.sacar_valor).2.tamanio = s.tamanio := by
  unfold sacar_valor; split <;> rfl

theorem SenialCola.Rep_poner (s : SenialCola) (l : List Rat) (v : Rat)
    (hr : s.Rep l) (hlt : l.length < s.tamanio) :
    (s.poner_valor v).Rep (l ++ [v]) := by
  obtain ⟨hlen, hcant, hle, hcab, hcola, hval⟩ := hr
  have htam : 0 < s.tamanio := by omega
  have hcab2 : s.cabeza < s.tamanio := by omega
  have hno : ¬ s.tamanio ≤ s.cantidad := by omega
  unfold poner_valor Rep
  rw [if_neg hno]
  dsimp only
  refine ⟨by simp [hlen], by simp [hcant], by simp; omega, Or.inl hcab2, ?_, ?_⟩
  · rw [hcola, Nat.mod_add_mod]
    congr 1
    simp
    omega
  · intro i h
    simp only [List.length_append, List.length_cons, List.length_nil] at h
    by_cases hi : i < l.length
    · have hne : s.cola ≠ (s.cabeza + i) % s.tamanio := by
        rw [hcola]
        intro he
        have := mod_indice_inj s.tamanio s.cabeza l.length i (by omega) (by omega) he
        omega
      rw [List.getElem?_set_ne hne, hval i hi]
      congr 2
      exact (List.getElem_append_left hi).symm
    · have hi2 : i = l.length := by omega
      subst hi2
      have hidx : (s.cabeza + l.length) % s.tamanio < s.valores.length := by
        rw [hlen]; exact Nat.mod_lt _ htam
      rw [← hcola] at hidx ⊢
      rw [List.getElem?_set_self hidx]
      congr 2
      simp

theorem SenialCola.Rep_sacar_nil (s : SenialCola) (hr : s.Rep []) :
    s.sacar_valor = (none, s) := by
  obtain ⟨_, hcant, _, _, _, _⟩ := hr
  unfold sacar_valor
  rw [if_pos (by simpa using hcant)]

theorem SenialCola.Rep_sacar_cons (s : SenialCola) (a : Rat) (l : List Rat)
    (hr : s.Rep (a :: l)) :
    (s.sacar_valor).1 = some a ∧ (s.sacar_valor).2.Rep l := by
  obtain ⟨hlen, hcant, hle, hcab, hcola, hval⟩ := hr
  simp only [List.length_cons] at hcant hle
  have htam : 0 < s.tamanio := by omega
  have hcab2 : s.cabeza < s.tamanio := by omega
  have hno : ¬ s.cantidad = 0 := by omega
  have hv0 : s.valores[s.cabeza]? = some (some a) := by
    have := hval 0 (by simp)
    simpa [Nat.mod_eq_of_lt hcab2] using this
  constructor
  · unfold sacar_valor
    rw [if_neg hno]
    simp [hv0]
  · unfold sacar_valor Rep
    rw [if_neg hno]
    dsimp only
    refine ⟨by simp [hlen], by simp [hcant], by omega,
      Or.inl (Nat.mod_lt _ htam), ?_, ?_⟩
    · rw [Nat.mod_add_mod, hcola]
      congr 1
      simp
      omega
    · intro i h
      have hlt : 1 + i < s.tamanio := by omega
      have hne : s.cabeza ≠ ((s.cabeza + 1) % s.tamanio + i) % s.tamanio := by
        rw [Nat.mod_add_mod]
        intro he
        have he2 : (s.cabeza + 0) % s.tamanio = (s.cabeza + (1 + i)) % s.tamanio := by
          rw [Nat.add_zero, Nat.mod_eq_of_lt hcab2]
          rw [show s.cabeza + (1 + i) = s.cabeza + 1 + i by omega]
          exact he
        have := mod_indice_inj s.tamanio s.cabeza 0 (1 + i) (by omega) hlt he2
        omega
      rw [List.getElem?_set_ne hne, Nat.mod_add_mod]
      have h2 := hval (i + 1) (by simpa using Nat.succ_lt_succ h)
      have harg : s.cabeza + 1 + i = s.cabeza + (i + 1) := by omega
      rw [harg, h2]
      rfl

theorem SenialCola.ejecutar_sim : ∀ (ops : List OpCola) (s : SenialCola) (l : List Rat),
    s.Rep l → opsValidas s.tamanio l.length ops = true →
    (SenialCola.ejecutarOps s ops).1 = (fifoEjecutar l ops).1 ∧
    (SenialCola.ejecutarOps s ops).2.Rep (fifoEjecutar l ops).2 := by
  intro ops
  induction ops with
  | nil => intro s l hr _; exact ⟨rfl, hr⟩
  | cons op ops ih =>
    intro s l hr hv
    cases op with
    | poner v =>
      simp only [opsValidas, Bool.and_eq_true, decide_eq_true_eq] at hv
      have hr2 := SenialCola.Rep_poner s l v hr hv.1
      have hv2 : opsValidas (s.poner_valor v).tamanio (l ++ [v]).length ops = true := by
        rw [SenialCola.tamanio_poner]
        simpa using hv.2
      exact ih (s.poner_valor v) (l ++ [v]) hr2 hv2
    | sacar =>
      simp only [opsValidas] at hv
      cases l with
      | nil =>
        have hs := SenialCola.Rep_sacar_nil s hr
        have h3 := ih s [] hr (by simpa using hv)
        constructor
        · simp [SenialCola.ejecutarOps, fifoEjecutar, hs, h3.1]
        · have h4 := h3.2
          simpa [SenialCola.ejecutarOps, fifoEjecutar, hs] using h4
      | cons a l2 =>
        obtain ⟨h1, h2⟩ := SenialCola.Rep_sacar_cons s a l2 hr
        have hv2 : opsValidas (s.sacar_valor).2.tamanio l2.length ops = true := by
          rw [SenialCola.tamanio_sacar]
          simpa using hv
        have := ih (s.sacar_valor).2 l2 h2 hv2
        simp only [SenialCola.ejecutarOps, fifoEjecutar]
        exact ⟨by rw [h1, this.1]; rfl, this.2⟩

/-- Claim C1: a `SenialCola` of capacity `tamanio` behaves as a first-in
first-out queue under any interleaving of `poner_valor`/`sacar_valor` in which
the element count never exceeds the capacity: every `sacar_valor` returns
exactly what the abstract FIFO queue returns (the values in insertion order,
and `none` exactly when the queue is empty, including across wrap-around of
the internal indices), and the final element count agrees with the abstract
queue's length. -/
theorem c1_senial_cola_fifo (tam : Nat) (ops : List OpCola)
    (hval : opsValidas tam 0 ops = true) :
    (SenialCola.ejecutarOps (SenialCola.crear tam) ops).1 = (fifoEjecutar [] ops).1 ∧
    (SenialCola.ejecutarOps (SenialCola.crear tam) ops).2.cantidad =
      (fifoEjecutar [] ops).2.length := by
  have h := SenialCola.ejecutar_sim ops (SenialCola.crear tam) []
    (SenialCola.Rep_crear tam) (by simpa [SenialCola.crear] using hval)
  exact ⟨h.1, h.2.2.1⟩

/-- Wrap-around witness for C1: capacity 3, fill, drain partially, refill past
the physical end of the array, drain to empty and once more (returning
`none`). -/
theorem c1_senial_cola_fifo_testigo :
    opsValidas 3 0 [OpCola.poner 1, OpCola.poner 2, OpCola.poner 3, OpCola.sacar,
      OpCola.poner 4, OpCola.sacar, OpCola.sacar, OpCola.sacar, OpCola.sacar] = true ∧
    (SenialCola.ejecutarOps (SenialCola.crear 3)
      [OpCola.poner 1, OpCola.poner 2, OpCola.poner 3, OpCola.sacar,
       OpCola.poner 4, OpCola.sacar, OpCola.sacar, OpCola.sacar, OpCola.sacar]).1 =
    (fifoEjecutar []
      [OpCola.poner 1, OpCola.poner 2, OpCola.poner 3, OpCola.sacar,
       OpCola.poner 4, OpCola.sacar, OpCola.sacar, OpCola.sacar, OpCola.sacar]).1 := by
  refine ⟨by decide, ?_⟩
  exact (c1_senial_cola_fifo 3 _ (by decide)).1

/-! ### C7 — capacity invariants of the three señal structures -/

/-- One client call among the four methods the claim ranges over. -/
inductive OpSenial where
  | poner (valor : Rat)
  | sacar
  | limpiar
  | obtener (indice : Nat)
deriving DecidableEq

def SenialLista.ejecutarOps : SenialLista → List OpSenial → SenialLista
  | s, [] => s
  | s, .poner v :: ops => SenialLista.ejecutarOps (s.poner_valor v) ops
  | s, .sacar :: ops => SenialLista.ejecutarOps (s.sacar_valor).2 ops
  | s, .limpiar :: ops => SenialLista.ejecutarOps s.limpiar ops
  | s, .obtener _ :: ops => SenialLista.ejecutarOps s ops

def SenialPila.ejecutarOps : SenialPila → List OpSenial → SenialPila
  | s, [] => s
  | s, .poner v :: ops => SenialPila.ejecutarOps (s.poner_valor v) ops
  | s, .sacar :: ops => SenialPila.ejecutarOps (s.sacar_valor).2 ops
  | s, .limpiar :: ops => SenialPila.ejecutarOps s.limpiar ops
  | s, .obtener _ :: ops => SenialPila.ejecutarOps s ops

def SenialCola.ejecutarOpsGen : SenialCola → List OpSenial → SenialCola
  | s, [] => s
  | s, .poner v :: ops => SenialCola.ejecutarOpsGen (s.poner_valor v) ops
  | s, .sacar :: ops => SenialCola.ejecutarOpsGen (s.sacar_valor).2 ops
  | s, .limpiar :: ops => SenialCola.ejecutarOpsGen s.limpiar ops
  | s, .obtener _ :: ops => SenialCola.ejecutarOpsGen s ops

/-- The logical contents of a `SenialCola`, read through its public interface. -/
def SenialCola.contenido (s : SenialCola) : List Rat :=
  (List.range s.cantidad).filterMap s.obtener_valor

def SenialLista.Inv (s : SenialLista) : Prop :=
  s.cantidad = s.valores.length ∧ s.cantidad ≤ s.tamanio

def SenialPila.Inv (s : SenialPila) : Prop :=
  s.cantidad = s.valores.length ∧ s.cantidad ≤ s.tamanio

theorem SenialLista.Inv_ejecutar_lista : ∀ (ops : List OpSenial) (s : SenialLista),
    s.Inv → (s.ejecutarOps ops).Inv ∧ (s.ejecutarOps ops).tamanio = s.tamanio := by
  intro ops
  induction ops with
  | nil => intro s h; exact ⟨h, rfl⟩
  | cons op ops ih =>
    intro s h
    obtain ⟨h1, h2⟩ := h
    cases op with
    | poner v =>
      have := ih (s.poner_valor v)
      by_cases hg : s.tamanio ≤ s.cantidad
      · simp only [SenialLista.ejecutarOps, poner_valor, if_pos hg] at *
        exact this ⟨h1, h2⟩
      · simp only [SenialLista.ejecutarOps, poner_valor, if_neg hg] at *
        refine this ⟨by simp [h1], by simp; omega⟩
    | sacar =>
      have := ih (s.sacar_valor).2
      by_cases hg : s.cantidad = 0
      · simp only [SenialLista.ejecutarOps, sacar_valor, if_pos hg] at *
        exact this ⟨h1, h2⟩
      · simp only [SenialLista.ejecutarOps, sacar_valor, if_neg hg] at *
        refine this ⟨?_, by simp; omega⟩
        simp [List.length_dropLast]
        omega
    | limpiar =>
      have := ih s.limpiar
      simp only [SenialLista.ejecutarOps, limpiar] at *
      exact this ⟨by simp, by simp⟩
    | obtener i =>
      exact ih s ⟨h1, h2⟩

theorem SenialPila.Inv_ejecutar_pila : ∀ (ops : List OpSenial) (s : SenialPila),
    s.Inv → (s.ejecutarOps ops).Inv ∧ (s.ejecutarOps ops).tamanio = s.tamanio := by
  intro ops
  induction ops with
  | nil => intro s h; exact ⟨h, rfl⟩
  | cons op ops ih =>
    intro s h
    obtain ⟨h1, h2⟩ := h
    cases op with
    | poner v =>
      have := ih (s.poner_valor v)
      by_cases hg : s.tamanio ≤ s.cantidad
      · simp only [SenialPila.ejecutarOps, poner_valor, if_pos hg] at *
        exact this ⟨h1, h2⟩
      · simp only [SenialPila.ejecutarOps, poner_valor, if_neg hg] at *
        refine this ⟨by simp [h1], by simp; omega⟩
    | sacar =>
      have := ih (s.sacar_valor).2
      by_cases hg : s.cantidad = 0
      · simp only [SenialPila.ejecutarOps, sacar_valor, if_pos hg] at *
        exact this ⟨h1, h2⟩
      · simp only [SenialPila.ejecutarOps, sacar_valor, if_neg hg] at *
        refine this ⟨?_, by simp; omega⟩
        simp [List.length_dropLast]
        omega
    | limpiar =>
      have := ih s.limpiar
      simp only [SenialPila.ejecutarOps, limpiar] at *
      exact this ⟨by simp, by simp⟩
    | obtener i =>
      exact ih s ⟨h1, h2⟩

theorem SenialCola.Rep_limpiar (s : SenialCola) : (s.limpiar).Rep [] := by
  refine ⟨by simp [limpiar], rfl, by simp, by simp [limpiar]; omega, by simp [limpiar], ?_⟩
  intro i h
  simp at h

theorem SenialCola.Rep_poner_llena (s : SenialCola) (v : Rat)
    (h : s.tamanio ≤ s.cantidad) : s.poner_valor v = s := by
  unfold poner_valor
  rw [if_pos h]

theorem SenialCola.tamanio_limpiar (s : SenialCola) : (s.limpiar).tamanio = s.tamanio := rfl

theorem SenialCola.Rep_ejecutarGen : ∀ (ops : List OpSenial) (s : SenialCola) (l : List Rat),
    s.Rep l → (∃ l2, (s.ejecutarOpsGen ops).Rep l2) ∧
      (s.ejecutarOpsGen ops).tamanio = s.tamanio := by
  intro ops
  induction ops with
  | nil => intro s l h; exact ⟨⟨l, h⟩, rfl⟩
  | cons op ops ih =>
    intro s l h
    cases op with
    | poner v =>
      simp only [SenialCola.ejecutarOpsGen]
      by_cases hg : l.length < s.tamanio
      · have h2 := SenialCola.Rep_poner s l v h hg
        have h3 := ih (s.poner_valor v) (l ++ [v]) h2
        exact ⟨h3.1, by rw [h3.2, SenialCola.tamanio_poner]⟩
      · have hfull : s.tamanio ≤ s.cantidad := by
          obtain ⟨_, hc, _, _, _, _⟩ := h
          omega
        have he : s.poner_valor v = s := SenialCola.Rep_poner_llena s v hfull
        rw [he]
        exact ih s l h
    | sacar =>
      simp only [SenialCola.ejecutarOpsGen]
      cases l with
      | nil =>
        have hs := SenialCola.Rep_sacar_nil s h
        rw [hs]
        exact ih s [] h
      | cons a l2 =>
        have h2 := (SenialCola.Rep_sacar_cons s a l2 h).2
        have h3 := ih (s.sacar_valor).2 l2 h2
        exact ⟨h3.1, by rw [h3.2, SenialCola.tamanio_sacar]⟩
    | limpiar =>
      simp only [SenialCola.ejecutarOpsGen]
      have h3 := ih s.limpiar [] (SenialCola.Rep_limpiar s)
      exact ⟨h3.1, by rw [h3.2, SenialCola.tamanio_limpiar]⟩
    | obtener i =>
      exact ih s l h

theorem SenialCola.Rep_obtener (s : SenialCola) (l : List Rat) (hr : s.Rep l) (i : Nat) :
    s.obtener_valor i = l[i]? := by
  obtain ⟨hlen, hcant, hle, hcab, hcola, hval⟩ := hr
  by_cases hi : i < l.length
  · unfold obtener_valor
    rw [if_neg (by omega)]
    rw [hval i hi]
    simp [List.getElem?_eq_getElem hi]
  · unfold obtener_valor
    rw [if_pos (by omega)]
    rw [List.getElem?_eq_none (by omega)]

theorem filterMap_range_todo {α : Type} (l : List α) (f : Nat → Option α)
    (h : ∀ i, (hi : i < l.length) → f i = some l[i]) :
    (List.range l.length).filterMap f = l := by
  induction l using List.reverseRecOn with
  | nil => simp
  | append_singleton l a ih =>
    have hlen : (l ++ [a]).length = l.length + 1 := by simp
    rw [hlen, List.range_succ, List.filterMap_append]
    have h1 : (List.range l.length).filterMap f = l := by
      apply ih
      intro i hi
      rw [h i (by simp; omega)]
      congr 1
      exact List.getElem_append_left hi
    have h2 : f l.length = some a := by
      rw [h l.length (by simp)]
      congr 1
      simp
    rw [h1]
    simp [h2]

theorem SenialCola.Rep_contenido (s : SenialCola) (l : List Rat) (hr : s.Rep l) :
    s.contenido = l := by
  unfold contenido
  rw [hr.2.1]
  apply filterMap_range_todo
  intro i hi
  rw [SenialCola.Rep_obtener s l hr i]
  exact List.getElem?_eq_getElem hi

/-- Claim C7: starting from a freshly created señal of capacity `tam`, any
sequence of `poner_valor`, `sacar_valor`, `limpiar` and `obtener_valor` calls
keeps `0 ≤ cantidad ≤ tam` (the lower bound is definitional because the model
keeps the counter as a `Nat`, mirroring the guarded decrements of the code),
keeps `obtener_tamanio()` equal to the number of elements currently stored,
and for `SenialCola` keeps `_cola = (_cabeza + _cantidad) % tam`. -/
theorem c7_invariantes (tam : Nat) (opsL opsP opsC : List OpSenial) :
    ((SenialLista.crear tam).ejecutarOps opsL).obtener_tamanio =
        ((SenialLista.crear tam).ejecutarOps opsL).cantidad ∧
    ((SenialLista.crear tam).ejecutarOps opsL).cantidad ≤ tam ∧
    ((SenialPila.crear tam).ejecutarOps opsP).obtener_tamanio =
        ((SenialPila.crear tam).ejecutarOps opsP).cantidad ∧
    ((SenialPila.crear tam).ejecutarOps opsP).cantidad ≤ tam ∧
    ((SenialCola.crear tam).ejecutarOpsGen opsC).obtener_tamanio =
        ((SenialCola.crear tam).ejecutarOpsGen opsC).contenido.length ∧
    ((SenialCola.crear tam).ejecutarOpsGen opsC).cantidad ≤ tam ∧
    ((SenialCola.crear tam).ejecutarOpsGen opsC).cola =
      (((SenialCola.crear tam).ejecutarOpsGen opsC).cabeza +
        ((SenialCola.crear tam).ejecutarOpsGen opsC).cantidad) % tam := by
  have hl := SenialLista.Inv_ejecutar_lista opsL (SenialLista.crear tam) ⟨rfl, by simp [SenialLista.crear]⟩
  have hp := SenialPila.Inv_ejecutar_pila opsP (SenialPila.crear tam) ⟨rfl, by simp [SenialPila.crear]⟩
  have hc := SenialCola.Rep_ejecutarGen opsC (SenialCola.crear tam) [] (SenialCola.Rep_crear tam)
  obtain ⟨⟨l2, hrep⟩, htam⟩ := hc
  have htam0 : (SenialCola.crear tam).tamanio = tam := rfl
  obtain ⟨hlen, hcant, hle, hcab, hcola, hval⟩ := hrep
  have htamL : (SenialLista.crear tam).tamanio = tam := rfl
  have htamP : (SenialPila.crear tam).tamanio = tam := rfl
  refine ⟨?_, ?_, ?_, ?_, ?_, ?_, ?_⟩
  · exact (hl.1.1).symm
  · have h5 := hl.1.2; rw [hl.2, htamL] at h5; exact h5
  · exact (hp.1.1).symm
  · have h5 := hp.1.2; rw [hp.2, htamP] at h5; exact h5
  · rw [SenialCola.Rep_contenido _ l2 ⟨hlen, hcant, hle, hcab, hcola, hval⟩]
    exact hcant
  · rw [htam, htam0] at hle
    omega
  · rw [htam, htam0] at hcola
    rw [hcola, hcant]

/-! ### C9 — rejected operations leave the señal unchanged -/

/-- Claim C9: for each of the three señal structures, `poner_valor` on a full
señal (`cantidad = tamanio`) returns with the state unchanged, and
`sacar_valor` on an empty señal returns `None` with the state unchanged. The
model's operations are total functions, mirroring that the Python methods
handle both situations by printing a message rather than raising. -/
theorem c9_operaciones_fallidas (sl : SenialLista) (sp : SenialPila) (sc : SenialCola)
    (v : Rat) :
    (sl.cantidad = sl.tamanio → sl.poner_valor v = sl) ∧
    (sl.cantidad = 0 → sl.sacar_valor = (none, sl)) ∧
    (sp.cantidad = sp.tamanio → sp.poner_valor v = sp) ∧
    (sp.cantidad = 0 → sp.sacar_valor = (none, sp)) ∧
    (sc.cantidad = sc.tamanio → sc.poner_valor v = sc) ∧
    (sc.cantidad = 0 → sc.sacar_valor = (none, sc)) := by
  refine ⟨?_, ?_, ?_, ?_, ?_, ?_⟩
  · intro h
    unfold SenialLista.poner_valor
    rw [if_pos (by omega)]
  · intro h
    unfold SenialLista.sacar_valor
    rw [if_pos h]
  · intro h
    unfold SenialPila.poner_valor
    rw [if_pos (by omega)]
  · intro h
    unfold SenialPila.sacar_valor
    rw [if_pos h]
  · intro h
    unfold SenialCola.poner_valor
    rw [if_pos (by omega)]
  · intro h
    unfold SenialCola.sacar_valor
    rw [if_pos h]

/-- Witness for C9 at concrete señales: a full `SenialLista` of capacity 1, an
empty `SenialPila`, and a full `SenialCola` of capacity 1 (also empty cases of
each via capacity-0 instances). -/
theorem c9_operaciones_fallidas_testigo :
    ((⟨none, 1, 1, [], 0, [5]⟩ : SenialLista).poner_valor 7 = ⟨none, 1, 1, [], 0, [5]⟩) ∧
    ((SenialLista.crear 3).sacar_valor = (none, SenialLista.crear 3)) ∧
    ((⟨none, 1, 1, [], 0, [5]⟩ : SenialPila).poner_valor 7 = ⟨none, 1, 1, [], 0, [5]⟩) ∧
    ((SenialPila.crear 3).sacar_valor = (none, SenialPila.crear 3)) ∧
    ((⟨none, 1, 1, [], 0, 0, 0, [some 5]⟩ : SenialCola).poner_valor 7 =
      ⟨none, 1, 1, [], 0, 0, 0, [some 5]⟩) ∧
    ((SenialCola.crear 3).sacar_valor = (none, SenialCola.crear 3)) := by
  refine ⟨?_, ?_, ?_, ?_, ?_, ?_⟩
  · exact (c9_operaciones_fallidas ⟨none, 1, 1, [], 0, [5]⟩ (SenialPila.crear 3)
      (SenialCola.crear 3) 7).1 rfl
  · exact (c9_operaciones_fallidas (SenialLista.crear 3) (SenialPila.crear 3)
      (SenialCola.crear 3) 7).2.1 rfl
  · exact (c9_operaciones_fallidas (SenialLista.crear 3) ⟨none, 1, 1, [], 0, [5]⟩
      (SenialCola.crear 3) 7).2.2.1 rfl
  · exact (c9_operaciones_fallidas (SenialLista.crear 3) (SenialPila.crear 3)
      (SenialCola.crear 3) 7).2.2.2.1 rfl
  · exact (c9_operaciones_fallidas (SenialLista.crear 3) (SenialPila.crear 3)
      ⟨none, 1, 1, [], 0, 0, 0, [some 5]⟩ 7).2.2.2.2.1 rfl
  · exact (c9_operaciones_fallidas (SenialLista.crear 3) (SenialPila.crear 3)
      (SenialCola.crear 3) 7).2.2.2.2.2 rfl

/-! ### C8 — ProcesadorAmplificador (src/procesamiento_senial/procesador.py) -/

/-- A señal seen through the `SenialBase` abstraction: the configurador can
inject any of the three concrete structures. -/
inductive SenialAny where
  | lista (s : SenialLista)
  | pila (s : SenialPila)
  | cola (s : SenialCola)
deriving DecidableEq

def SenialAny.poner_valor : SenialAny → Rat → SenialAny
  | .lista s, v => .lista (s.poner_valor v)
  | .pila s, v => .pila (s.poner_valor v)
  | .cola s, v => .cola (s.poner_valor v)

def SenialAny.obtener_valor : SenialAny → Nat → Option Rat
  | .lista s, i => s.obtener_valor i
  | .pila s, i => s.obtener_valor i
  | .cola s, i => s.obtener_valor i

def SenialAny.obtener_tamanio : SenialAny → Nat
  | .lista s => s.obtener_tamanio
  | .pila s => s.obtener_tamanio
  | .cola s => s.obtener_tamanio

/-- The capacity (`_tamanio` field) of the underlying señal. -/
def SenialAny.tamanioMax : SenialAny → Nat
  | .lista s => s.tamanio
  | .pila s => s.tamanio
  | .cola s => s.tamanio

/-- "Empty and well formed": what an injected, freshly constructed output
señal satisfies (for the circular queue this is the coupling invariant at the
empty abstract queue, which any reachable empty `SenialCola` satisfies). -/
def SenialAny.VaciaOk : SenialAny → Prop
  | .lista s => s.valores = [] ∧ s.cantidad = 0
  | .pila s => s.valores = [] ∧ s.cantidad = 0
  | .cola s => s.Rep []

/-- `ProcesadorAmplificador` (procesador.py:87-141): the injected output señal
`_senial` plus the `_amplificacion` factor. -/
structure ProcesadorAmplificador where
  amplificacion : Rat
  senial : SenialAny
deriving DecidableEq

/-- `ProcesadorAmplificador._amplificar`: defensive handling maps a `None`
input to `0.0`, otherwise multiplies by the factor. -/
def ProcesadorAmplificador.amplificar (p : ProcesadorAmplificador) (valor : Option Rat) : Rat :=
  match valor with
  | none => 0
  | some v => v * p.amplificacion

/-- `ProcesadorAmplificador.procesar`: for each logical index of the source
señal, reads the value through `obtener_valor` and appends the amplified
value to the output señal with `poner_valor`. The source is consumed purely
through its two observer methods, so the embedding makes it structurally
immutable, matching the Python method which never mutates its argument. -/
def ProcesadorAmplificador.procesar (p : ProcesadorAmplificador) (senial : SenialAny) :
    ProcesadorAmplificador :=
  let salida := (List.range senial.obtener_tamanio).foldl
    (fun out i => out.poner_valor (p.amplificar (senial.obtener_valor i))) p.senial
  { p with senial := salida }

theorem SenialLista.poner_fold_en_lista (xs : List Rat) : ∀ (s : SenialLista),
    s.cantidad = s.valores.length → s.valores.length + xs.length ≤ s.tamanio →
    xs.foldl SenialLista.poner_valor s =
      { s with valores := s.valores ++ xs, cantidad := s.cantidad + xs.length } := by
  induction xs with
  | nil => intro s h1 h2; simp
  | cons x xs ih =>
    intro s h1 h2
    simp only [List.length_cons] at h2
    have hg : ¬ s.tamanio ≤ s.cantidad := by omega
    simp only [List.foldl_cons, SenialLista.poner_valor, if_neg hg]
    rw [ih _ (by simp [h1]) (by simp; omega)]
    simp [List.append_assoc]
    omega

theorem SenialPila.poner_fold_en_pila (xs : List Rat) : ∀ (s : SenialPila),
    s.cantidad = s.valores.length → s.valores.length + xs.length ≤ s.tamanio →
    xs.foldl SenialPila.poner_valor s =
      { s with valores := s.valores ++ xs, cantidad := s.cantidad + xs.length } := by
  induction xs with
  | nil => intro s h1 h2; simp
  | cons x xs ih =>
    intro s h1 h2
    simp only [List.length_cons] at h2
    have hg : ¬ s.tamanio ≤ s.cantidad := by omega
    simp only [List.foldl_cons, SenialPila.poner_valor, if_neg hg]
    rw [ih _ (by simp [h1]) (by simp; omega)]
    simp [List.append_assoc]
    omega

theorem SenialCola.poner_fold_en_cola (xs : List Rat) : ∀ (s : SenialCola) (l : List Rat),
    s.Rep l → l.length + xs.length ≤ s.tamanio →
    (xs.foldl SenialCola.poner_valor s).Rep (l ++ xs) := by
  induction xs with
  | nil => intro s l h1 h2; simpa using h1
  | cons x xs ih =>
    intro s l h1 h2
    simp only [List.length_cons] at h2
    have h3 := SenialCola.Rep_poner s l x h1 (by omega)
    have h4 := ih (s.poner_valor x) (l ++ [x]) h3
      (by rw [SenialCola.tamanio_poner]; simp; omega)
    simpa [List.append_assoc] using h4

theorem SenialAny.poner_fold_lista (ys : List Rat) : ∀ (s : SenialLista),
    ys.foldl SenialAny.poner_valor (SenialAny.lista s) =
      SenialAny.lista (ys.foldl SenialLista.poner_valor s) := by
  induction ys with
  | nil => intro s; rfl
  | cons y ys ih => intro s; simp only [List.foldl_cons, SenialAny.poner_valor, ih]

theorem SenialAny.poner_fold_pila (ys : List Rat) : ∀ (s : SenialPila),
    ys.foldl SenialAny.poner_valor (SenialAny.pila s) =
      SenialAny.pila (ys.foldl SenialPila.poner_valor s) := by
  induction ys with
  | nil => intro s; rfl
  | cons y ys ih => intro s; simp only [List.foldl_cons, SenialAny.poner_valor, ih]

theorem SenialAny.poner_fold_cola (ys : List Rat) : ∀ (s : SenialCola),
    ys.foldl SenialAny.poner_valor (SenialAny.cola s) =
      SenialAny.cola (ys.foldl SenialCola.poner_valor s) := by
  induction ys with
  | nil => intro s; rfl
  | cons y ys ih => intro s; simp only [List.foldl_cons, SenialAny.poner_valor, ih]

/-- Claim C8: if the injected output señal of a `ProcesadorAmplificador` with
factor `a` is empty (well formed) and its capacity is at least
`s.obtener_tamanio()`, then after `procesar(s)` the output señal holds exactly
`s.obtener_tamanio()` values, the `i`-th being `s.obtener_valor(i) * a` with a
`None` source value mapped to `0.0` (that is, `amplificar` applied to the
source value); the source señal is untouched (structurally, since `procesar`
reads it only through `obtener_tamanio`/`obtener_valor`). -/
theorem c8_amplificador (p : ProcesadorAmplificador) (fuente : SenialAny)
    (hvacia : p.senial.VaciaOk)
    (hcap : fuente.obtener_tamanio ≤ p.senial.tamanioMax) :
    (p.procesar fuente).senial.obtener_tamanio = fuente.obtener_tamanio ∧
    ∀ i, i < fuente.obtener_tamanio →
      (p.procesar fuente).senial.obtener_valor i =
        some (p.amplificar (fuente.obtener_valor i)) := by
  set n := fuente.obtener_tamanio with hn
  set f : Nat → Rat := fun i => p.amplificar (fuente.obtener_valor i) with hf
  set ys : List Rat := (List.range n).map f with hys
  have hlen : ys.length = n := by simp [hys]
  have hfold : (p.procesar fuente).senial = ys.foldl SenialAny.poner_valor p.senial := by
    simp only [ProcesadorAmplificador.procesar, hys, List.foldl_map]
  have hget : ∀ i, i < n → ys[i]? = some (f i) := by
    intro i hi
    rw [hys]
    rw [List.getElem?_map]
    simp [List.getElem?_range hi]
  cases hsen : p.senial with
  | lista s =>
    rw [hsen] at hvacia hcap
    obtain ⟨hv1, hv2⟩ := hvacia
    have hres := SenialLista.poner_fold_en_lista ys s (by simp [hv1, hv2])
      (by rw [hv1]; simpa [hlen] using hcap)
    rw [hfold, hsen, SenialAny.poner_fold_lista, hres]
    constructor
    · simp [SenialAny.obtener_tamanio, SenialLista.obtener_tamanio, hv1, hlen]
    · intro i hi
      simp only [SenialAny.obtener_valor, SenialLista.obtener_valor, hv1, List.nil_append]
      exact hget i hi
  | pila s =>
    rw [hsen] at hvacia hcap
    obtain ⟨hv1, hv2⟩ := hvacia
    have hres := SenialPila.poner_fold_en_pila ys s (by simp [hv1, hv2])
      (by rw [hv1]; simpa [hlen] using hcap)
    rw [hfold, hsen, SenialAny.poner_fold_pila, hres]
    constructor
    · simp [SenialAny.obtener_tamanio, SenialPila.obtener_tamanio, hv1, hlen]
    · intro i hi
      simp only [SenialAny.obtener_valor, SenialPila.obtener_valor, hv1, List.nil_append]
      exact hget i hi
  | cola s =>
    rw [hsen] at hvacia hcap
    have hres := SenialCola.poner_fold_en_cola ys s [] hvacia (by simpa [hlen] using hcap)
    rw [hfold, hsen, SenialAny.poner_fold_cola]
    simp only [List.nil_append] at hres
    constructor
    · simp only [SenialAny.obtener_tamanio, SenialCola.obtener_tamanio]
      rw [hres.2.1, hlen]
    · intro i hi
      simp only [SenialAny.obtener_valor]
      rw [SenialCola.Rep_obtener _ ys hres i]
      exact hget i hi

/-- Witness for C8: factor 2, an empty `SenialCola` of capacity 4 as output,
and a two-element `SenialLista` as source. -/
theorem c8_amplificador_testigo :
    (SenialAny.cola (SenialCola.crear 4)).VaciaOk ∧
    ((ProcesadorAmplificador.mk 2 (SenialAny.cola (SenialCola.crear 4))).procesar
        (SenialAny.lista ⟨none, 2, 10, [], 0, [3, 5]⟩)).senial.obtener_tamanio =
      (SenialAny.lista (⟨none, 2, 10, [], 0, [3, 5]⟩ : SenialLista)).obtener_tamanio := by
  have hv : (SenialAny.cola (SenialCola.crear 4)).VaciaOk := SenialCola.Rep_crear 4
  refine ⟨hv, ?_⟩
  exact (c8_amplificador (ProcesadorAmplificador.mk 2 (SenialAny.cola (SenialCola.crear 4)))
    (SenialAny.lista ⟨none, 2, 10, [], 0, [3, 5]⟩) hv (by decide)).1

/-! ### The reflective text mapper (src/persistidor_senial/mapeador.py)

The mapper reflects over `entidad.__dict__`; we model an object's dict as an
association list `Registro` of attribute names (`List Char`) and values. A
value is a base-typed atom (`int`/`str`/`float`/`bool`), Python `None`
(class name `NoneType`), a `datetime.date` carried by its `str()` rendering
(class name `date`, which is in `lista_tipos_base`), or a list of optional
floats (`SenialCola` keeps `None` in free slots).

Python `in` on strings (substring test), `split`, `startswith` are modelled
by the executable functions below. Exceptions escaping the mapper
(`ValueError` from `int`/`float`, `IndexError` from `sep_valor[1]`) are
modelled by `none`. -/

inductive AtomVal where
  | aint (n : Int)
  | astr (s : List Char)
  | afloat (q : Rat)
  | abool (b : Bool)
deriving DecidableEq

inductive FieldVal where
  | base (a : AtomVal)
  | nulo
  | fecha (d : List Char)
  | flist (l : List (Option Rat))
deriving DecidableEq

abbrev Registro := List (List Char × FieldVal)

def nombreInt : List Char := ['i', 'n', 't']
def nombreStr : List Char := ['s', 't', 'r']
def nombreFloat : List Char := ['f', 'l', 'o', 'a', 't']
def nombreNone : List Char := ['N', 'o', 'n', 'e']
def nombreBool : List Char := ['b', 'o', 'o', 'l']
def nombreDate : List Char := ['d', 'a', 't', 'e']
def nombreNoneType : List Char := ['N', 'o', 'n', 'e', 'T', 'y', 'p', 'e']
def nombreList : List Char := ['l', 'i', 's', 't']

/-- `Mapeador.lista_tipos_base = ['int', 'str', 'float', 'None', 'bool', 'date']`. -/
def lista_tipos_base : List (List Char) :=
  [nombreInt, nombreStr, nombreFloat, nombreNone, nombreBool, nombreDate]

/-- `Mapeador.tipo_dato(tipo, dato)`: dispatch on the type name; unknown names
return Python `None` (inner `none`); a conversion error (`int`/`float` raise
`ValueError`) is the outer `none`. `bool(dato)` is `True` exactly on non-empty
strings. -/
def Mapeador.tipo_dato (tipo dato : List Char) : Option (Option AtomVal) :=
  if tipo = nombreInt then (intParse dato).map (fun n => some (AtomVal.aint n))
  else if tipo = nombreStr then some (some (AtomVal.astr dato))
  else if tipo = nombreFloat then (ratParse dato).map (fun q => some (AtomVal.afloat q))
  else if tipo = nombreBool then some (some (AtomVal.abool (decide (dato ≠ []))))
  else some none

/-- `value.__class__.__name__` as the mapper's reflection sees it. -/
def FieldVal.nombreTipo : FieldVal → List Char
  | .base (.aint _) => nombreInt
  | .base (.astr _) => nombreStr
  | .base (.afloat _) => nombreFloat
  | .base (.abool _) => nombreBool
  | .nulo => nombreNoneType
  | .fecha _ => nombreDate
  | .flist _ => nombreList

/-- `str(value)` for an atom. -/
def AtomVal.render : AtomVal → List Char
  | .aint n => intRender n
  | .astr s => s
  | .afloat q => ratRender q
  | .abool b => if b then ['T', 'r', 'u', 'e'] else ['F', 'a', 'l', 's', 'e']

/-- First serialized line of `MapeadorArchivo.ir_a_persistidor`: one pass over
the dict appending `name:str(value),` for base-typed values (including
`date`), deferring list attributes, and `name:` followed by the recursive
serialization of the attribute name string — i.e. `name,` — for other values
(the `None` metadata field takes this branch). -/
def MapeadorArchivo.lineaBase : Registro → List Char
  | [] => []
  | (n, FieldVal.base a) :: resto => n ++ ':' :: (a.render ++ ',' :: MapeadorArchivo.lineaBase resto)
  | (n, FieldVal.fecha d) :: resto => n ++ ':' :: (d ++ ',' :: MapeadorArchivo.lineaBase resto)
  | (n, FieldVal.nulo) :: resto => n ++ ':' :: (n ++ ',' :: MapeadorArchivo.lineaBase resto)
  | (_, FieldVal.flist _) :: resto => MapeadorArchivo.lineaBase resto

/-- Element lines for one list attribute: `name>i:str(v),` followed by a
newline, skipping `None` elements, with `i` counting only serialized
elements. -/
def MapeadorArchivo.lineasElementos (n : List Char) : Nat → List (Option Rat) → List Char
  | _, [] => []
  | i, none :: resto => MapeadorArchivo.lineasElementos n i resto
  | i, some q :: resto =>
    (n ++ '>' :: natRender i) ++ ':' :: (ratRender q ++ ',' :: '\n' ::
      MapeadorArchivo.lineasElementos n (i + 1) resto)

def MapeadorArchivo.lineasLista : Registro → List Char
  | [] => []
  | (n, FieldVal.flist l) :: resto =>
    MapeadorArchivo.lineasElementos n 0 l ++ MapeadorArchivo.lineasLista resto
  | _ :: resto => MapeadorArchivo.lineasLista resto

/-- `MapeadorArchivo.ir_a_persistidor` on a (non-base-typed) entity. -/
def MapeadorArchivo.ir_a_persistidor (r : Registro) : List Char :=
  MapeadorArchivo.lineaBase r ++ '\n' :: MapeadorArchivo.lineasLista r

/-- Model of Python `a.isPrefixOf`-style comparison used below. -/
def esPrefijoB : List Char → List Char → Bool
  | [], _ => true
  | _ :: _, [] => false
  | a :: as, b :: bs => a == b && esPrefijoB as bs

/-- Model of Python `aguja in pajar` (substring test). -/
def esInfijoB (aguja : List Char) : List Char → Bool
  | [] => aguja.isEmpty
  | c :: resto => esPrefijoB aguja (c :: resto) || esInfijoB aguja resto

def foldlOpt {α β : Type} (f : β → α → Option β) : β → List α → Option β
  | b, [] => some b
  | b, a :: resto =>
    match f b a with
    | none => none
    | some b2 => foldlOpt f b2 resto

/-- The inner loop of `venir_desde_persistidor` for one field token
`sep_valor` (already split on `:`): walk `entidad.__dict__`, and on every
attribute whose name occurs in `sep_valor[0]` either assign
`tipo_dato(type_name, sep_valor[1])` (base-typed current value, including
`date`), append `float(sep_valor[1])` (list value), or do nothing
(`NoneType`). A missing `sep_valor[1]` (Python `IndexError`) or a conversion
error is `none`. -/
def MapeadorArchivo.aplicarCampo (sv : List (List Char)) : Registro → Option Registro
  | [] => some []
  | (n, v) :: resto =>
    if esInfijoB n (sv.headD []) then
      if v.nombreTipo ∈ lista_tipos_base then
        match sv[1]? with
        | none => none
        | some dato =>
          match Mapeador.tipo_dato v.nombreTipo dato with
          | none => none
          | some nuevo =>
            (MapeadorArchivo.aplicarCampo sv resto).map (fun r2 =>
              (n, match nuevo with
                  | some a => FieldVal.base a
                  | none => FieldVal.nulo) :: r2)
      else
        match v with
        | FieldVal.flist l =>
          match sv[1]? with
          | none => none
          | some dato =>
            match ratParse dato with
            | none => none
            | some q =>
              (MapeadorArchivo.aplicarCampo sv resto).map (fun r2 =>
                (n, FieldVal.flist (l ++ [some q])) :: r2)
        | _ => (MapeadorArchivo.aplicarCampo sv resto).map (fun r2 => (n, v) :: r2)
    else (MapeadorArchivo.aplicarCampo sv resto).map (fun r2 => (n, v) :: r2)

def MapeadorArchivo.procCampo (t : Registro) (campo : List Char) : Option Registro :=
  MapeadorArchivo.aplicarCampo (splitOnChar ':' campo) t

/-- One line (`registro`) of `venir_desde_persistidor`: skipped when empty,
otherwise split on `,` and processed field by field. -/
def MapeadorArchivo.procRegistro (t : Registro) (reg : List Char) : Option Registro :=
  if reg = [] then some t else foldlOpt MapeadorArchivo.procCampo t (splitOnChar ',' reg)

/-- `MapeadorArchivo.venir_desde_persistidor(entidad, entidad_mapeada)`. -/
def MapeadorArchivo.venir_desde_persistidor (t : Registro) (s : List Char) : Option Registro :=
  foldlOpt MapeadorArchivo.procRegistro t (splitOnChar '\n' s)

/-! ### Mapper round-trip: side conditions and basic string lemmas -/

def sinSeparadores (s : List Char) : Bool :=
  s.all (fun c => c != ',' && c != ':' && c != '\n')

def nombreOkB (s : List Char) : Bool := !s.isEmpty && sinSeparadores s

/-- One attribute of the round trip: its name, its value in the freshly
constructed template passed to `venir_desde_persistidor`, and its value in
the entity passed to `ir_a_persistidor`. -/
structure Entrada where
  nombre : List Char
  plantilla : FieldVal
  valor : FieldVal
deriving DecidableEq

/-- Template/entity shape agreement for one attribute of the round trip:
the template is freshly constructed from the entity's class, so base-typed
attributes have the entity's type (the verified fragment covers
`int`/`str`/`float`, lists, and the `None`-initialized metadata field which
the entity may meanwhile hold as a `date`). -/
def formaOkB (e : Entrada) : Bool :=
  match e.plantilla, e.valor with
  | FieldVal.base (AtomVal.aint _), FieldVal.base (AtomVal.aint _) => true
  | FieldVal.base (AtomVal.astr _), FieldVal.base (AtomVal.astr _) => true
  | FieldVal.base (AtomVal.afloat _), FieldVal.base (AtomVal.afloat _) => true
  | FieldVal.flist _, FieldVal.flist _ => true
  | FieldVal.nulo, FieldVal.nulo => true
  | FieldVal.nulo, FieldVal.fecha _ => true
  | _, _ => false

theorem sinSeparadores_no (s : List Char) (h : sinSeparadores s = true) :
    ',' ∉ s ∧ ':' ∉ s ∧ '\n' ∉ s := by
  refine ⟨?_, ?_, ?_⟩ <;> intro hm <;>
    have h2 := List.all_eq_true.mp h _ hm <;> simp at h2

theorem esDigito_ne_de (c d : Char) (h : esDigito c = true) (hd : esDigito d = false) :
    c ≠ d := by
  intro he
  rw [he, hd] at h
  cases h

theorem natRender_no_mem (n : Nat) (d : Char) (hd : esDigito d = false) :
    d ∉ natRender n := by
  intro hm
  exact absurd (natRender_digitos n d hm) (by simp [hd])

theorem intRender_no_mem (n : Int) (d : Char) (hd : esDigito d = false) (h1 : d ≠ '-') :
    d ∉ intRender n := by
  intro hm
  rcases mem_intRender n d hm with h2 | h2
  · rw [h2] at hd; cases hd
  · exact h1 h2

theorem mem_ratRender (q : Rat) (c : Char) (h : c ∈ ratRender q) :
    esDigito c = true ∨ c = '-' ∨ c = '/' := by
  unfold ratRender at h
  rcases List.mem_append.mp h with h1 | h1
  · rcases mem_intRender q.num c h1 with h2 | h2
    · exact Or.inl h2
    · exact Or.inr (Or.inl h2)
  · rcases List.mem_cons.mp h1 with h2 | h2
    · exact Or.inr (Or.inr h2)
    · exact Or.inl (natRender_digitos q.den c h2)

theorem ratRender_no_mem (q : Rat) (d : Char) (hd : esDigito d = false)
    (h1 : d ≠ '-') (h2 : d ≠ '/') : d ∉ ratRender q := by
  intro hm
  rcases mem_ratRender q d hm with h3 | h3 | h3
  · rw [h3] at hd; cases hd
  · exact h1 h3
  · exact h2 h3

theorem esPrefijoB_append (s t : List Char) : esPrefijoB s (s ++ t) = true := by
  induction s with
  | nil => rfl
  | cons c r ih => simp [esPrefijoB, ih]

theorem esPrefijoB_iff (a : List Char) : ∀ b, esPrefijoB a b = true ↔ a <+: b := by
  induction a with
  | nil => intro b; simp [esPrefijoB]
  | cons c r ih =>
    intro b
    cases b with
    | nil => simp [esPrefijoB]
    | cons d bs =>
      simp only [esPrefijoB, Bool.and_eq_true, beq_iff_eq, ih bs, List.prefix_cons_iff]
      constructor
      · rintro ⟨rfl, h2⟩
        exact Or.inr ⟨r, rfl, h2⟩
      · rintro (h | ⟨t, ht, h2⟩)
        · cases h
        · obtain ⟨h3, h4⟩ : c = d ∧ r = t := by
            refine ⟨?_, ?_⟩ <;> injection ht
          subst h3
          subst h4
          exact ⟨rfl, h2⟩

theorem esInfijoB_iff (a : List Char) : ∀ p, esInfijoB a p = true ↔ a <:+: p := by
  intro p
  induction p with
  | nil =>
    simp only [esInfijoB, List.isEmpty_iff, List.infix_nil]
  | cons c resto ih =>
    simp only [esInfijoB, Bool.or_eq_true, esPrefijoB_iff, ih, List.infix_cons_iff]

theorem esInfijoB_self (s : List Char) : esInfijoB s s = true :=
  (esInfijoB_iff s s).mpr (List.infix_refl s)

theorem esInfijoB_append_right (s t : List Char) : esInfijoB s (s ++ t) = true :=
  (esInfijoB_iff s (s ++ t)).mpr ⟨[], t, by simp⟩

theorem esInfijoB_nil_falso (n : List Char) (h : n ≠ []) : esInfijoB n [] = false := by
  cases n with
  | nil => exact absurd rfl h
  | cons c r => rfl

/-- Separator sanity of an entity attribute value: serialized `str`/`date`
payloads must not contain the mapper's separator characters. -/
def valorOkB : FieldVal → Bool
  | FieldVal.base (AtomVal.astr s) => sinSeparadores s
  | FieldVal.fecha d => sinSeparadores d
  | _ => true

/-- The record keys that the serializer emits for one attribute: the name
itself for non-list values, `name>i` for each serialized list element. -/
def clavesCampo (n : List Char) : FieldVal → List (List Char)
  | FieldVal.flist l => (List.range (l.filterMap id).length).map (fun i => n ++ '>' :: natRender i)
  | _ => [n]

/-- Attribute `a` never matches (under Python's substring test) any record key
emitted for attribute `b`. -/
def sinColisionB (a b : Entrada) : Bool :=
  (clavesCampo b.nombre b.valor).all (fun k => !(esInfijoB a.nombre k))

/-- Pairwise collision freedom, both directions. -/
def paresSinColision : List Entrada → Bool
  | [] => true
  | e :: resto =>
    resto.all (fun e2 => sinColisionB e e2 && sinColisionB e2 e) && paresSinColision resto

def plantillaDe (z : List Entrada) : Registro := z.map (fun e => (e.nombre, e.plantilla))

def entidadDe (z : List Entrada) : Registro := z.map (fun e => (e.nombre, e.valor))

/-- What the round trip is expected to produce for one attribute: base-typed
values restored from the entity, the entity's non-`None` list elements
appended to the template's list, other (metadata) attributes left as in the
template. -/
def restauradoCampo (e : Entrada) : List Char × FieldVal :=
  match e.plantilla, e.valor with
  | FieldVal.base _, FieldVal.base a => (e.nombre, FieldVal.base a)
  | FieldVal.flist lt, FieldVal.flist le =>
    (e.nombre, FieldVal.flist (lt ++ (le.filterMap id).map some))
  | _, _ => (e.nombre, e.plantilla)

def restauradoDe (z : List Entrada) : Registro := z.map restauradoCampo

/-- Intermediate state after the first serialized line has been processed:
base-typed attributes already restored, list attributes still as in the
template. -/
def medioCampo (e : Entrada) : List Char × FieldVal :=
  match e.plantilla with
  | FieldVal.flist _ => (e.nombre, e.plantilla)
  | _ => restauradoCampo e

def mediosDe (z : List Entrada) : Registro := z.map medioCampo

/-- The `name:payload` token the first line holds for a non-list attribute. -/
def tokenCampo (n : List Char) : FieldVal → Option (List Char)
  | FieldVal.flist _ => none
  | FieldVal.base a => some (n ++ ':' :: a.render)
  | FieldVal.fecha d => some (n ++ ':' :: d)
  | FieldVal.nulo => some (n ++ ':' :: n)

def tokensDe (z : List Entrada) : List (List Char) :=
  z.filterMap (fun e => tokenCampo e.nombre e.valor)

/-- The element-line bodies (text between newlines) for one list attribute. -/
def cuerposElementos (n : List Char) : Nat → List (Option Rat) → List (List Char)
  | _, [] => []
  | i, none :: resto => cuerposElementos n i resto
  | i, some q :: resto =>
    ((n ++ '>' :: natRender i) ++ ':' :: (ratRender q ++ [','])) :: cuerposElementos n (i + 1) resto

def cuerposDe (z : List Entrada) : List (List Char) :=
  z.flatMap (fun e =>
    match e.valor with
    | FieldVal.flist l => cuerposElementos e.nombre 0 l
    | _ => [])

/-! ### Shape of the serialized text -/

theorem nombreOk_no (s : List Char) (h : nombreOkB s = true) :
    s ≠ [] ∧ ',' ∉ s ∧ ':' ∉ s ∧ '\n' ∉ s := by
  simp only [nombreOkB, Bool.and_eq_true, Bool.not_eq_true'] at h
  obtain ⟨h1, h2⟩ := h
  refine ⟨?_, sinSeparadores_no s h2⟩
  intro he
  rw [he] at h1
  cases h1

theorem token_forma (e : Entrada) (tok : List Char)
    (htok : tokenCampo e.nombre e.valor = some tok) :
    ∃ w, tok = e.nombre ++ ':' :: w ∧
      (e.valor = FieldVal.base (AtomVal.astr w) ∨ e.valor = FieldVal.fecha w ∨
        (e.valor = FieldVal.nulo ∧ w = e.nombre) ∨
        (∃ a, e.valor = FieldVal.base a ∧ w = a.render)) := by
  cases hv : e.valor with
  | base a =>
    rw [hv] at htok
    simp only [tokenCampo, Option.some.injEq] at htok
    exact ⟨a.render, htok.symm, Or.inr (Or.inr (Or.inr ⟨a, rfl, rfl⟩))⟩
  | nulo =>
    rw [hv] at htok
    simp only [tokenCampo, Option.some.injEq] at htok
    exact ⟨e.nombre, htok.symm, Or.inr (Or.inr (Or.inl ⟨rfl, rfl⟩))⟩
  | fecha d =>
    rw [hv] at htok
    simp only [tokenCampo, Option.some.injEq] at htok
    exact ⟨d, htok.symm, Or.inr (Or.inl rfl)⟩
  | flist l =>
    rw [hv] at htok
    cases htok

/-- Every character of a token's payload avoids the separators `,` `:` `\n`. -/
theorem token_payload_sin (e : Entrada) (tok w : List Char)
    (hnom : nombreOkB e.nombre = true) (hval : valorOkB e.valor = true)
    (htok : tokenCampo e.nombre e.valor = some tok)
    (hw : tok = e.nombre ++ ':' :: w ∧
      (e.valor = FieldVal.base (AtomVal.astr w) ∨ e.valor = FieldVal.fecha w ∨
        (e.valor = FieldVal.nulo ∧ w = e.nombre) ∨
        (∃ a, e.valor = FieldVal.base a ∧ w = a.render))) :
    ',' ∉ w ∧ ':' ∉ w ∧ '\n' ∉ w := by
  obtain ⟨hn1, hn2, hn3, hn4⟩ := nombreOk_no e.nombre hnom
  rcases hw.2 with h | h | ⟨h, rfl⟩ | ⟨a, ha, rfl⟩
  · rw [h] at hval
    exact sinSeparadores_no w hval
  · rw [h] at hval
    exact sinSeparadores_no w hval
  · exact ⟨hn2, hn3, hn4⟩
  · cases a with
    | aint k =>
      refine ⟨?_, ?_, ?_⟩ <;>
        exact intRender_no_mem k _ (by decide) (by decide)
    | astr s =>
      rw [ha] at hval
      exact sinSeparadores_no _ hval
    | afloat q =>
      refine ⟨?_, ?_, ?_⟩ <;>
        exact ratRender_no_mem q _ (by decide) (by decide) (by decide)
    | abool b =>
      cases b <;> refine ⟨?_, ?_, ?_⟩ <;> simp [AtomVal.render] <;> decide

theorem token_sin_sep (e : Entrada) (tok : List Char)
    (hnom : nombreOkB e.nombre = true) (hval : valorOkB e.valor = true)
    (htok : tokenCampo e.nombre e.valor = some tok) :
    ',' ∉ tok ∧ '\n' ∉ tok := by
  obtain ⟨w, hw, hcase⟩ := token_forma e tok htok
  obtain ⟨hp1, hp2, hp3⟩ := token_payload_sin e tok w hnom hval htok ⟨hw, hcase⟩
  obtain ⟨hn1, hn2, hn3, hn4⟩ := nombreOk_no e.nombre hnom
  subst hw
  constructor
  · intro hm
    rcases List.mem_append.mp hm with h | h
    · exact hn2 h
    · rcases List.mem_cons.mp h with h | h
      · cases h
      · exact hp1 h
  · intro hm
    rcases List.mem_append.mp hm with h | h
    · exact hn4 h
    · rcases List.mem_cons.mp h with h | h
      · cases h
      · exact hp3 h

theorem token_division (e : Entrada) (tok w : List Char)
    (hnom : nombreOkB e.nombre = true)
    (hw : tok = e.nombre ++ ':' :: w) (hpw : ':' ∉ w) :
    splitOnChar ':' tok = [e.nombre, w] := by
  obtain ⟨hn1, hn2, hn3, hn4⟩ := nombreOk_no e.nombre hnom
  rw [hw, splitOnChar_parte ':' _ _ hn3, splitOnChar_sin ':' w hpw]

theorem token_clave (e : Entrada) (tok : List Char)
    (hnom : nombreOkB e.nombre = true) (hval : valorOkB e.valor = true)
    (htok : tokenCampo e.nombre e.valor = some tok) :
    (splitOnChar ':' tok).headD [] = e.nombre := by
  obtain ⟨w, hw, hcase⟩ := token_forma e tok htok
  obtain ⟨hp1, hp2, hp3⟩ := token_payload_sin e tok w hnom hval htok ⟨hw, hcase⟩
  rw [token_division e tok w hnom hw hp2]
  rfl

/-- Splitting the first serialized line on `,` yields the tokens of the
non-list attributes followed by one empty field (from the trailing comma). -/
theorem division_lineaBase (z : List Entrada)
    (hz : ∀ e ∈ z, nombreOkB e.nombre = true ∧ valorOkB e.valor = true) :
    splitOnChar ',' (MapeadorArchivo.lineaBase (entidadDe z)) = tokensDe z ++ [[]] := by
  induction z with
  | nil => rfl
  | cons e resto ih =>
    have he := hz e (by simp)
    have hresto : ∀ e2 ∈ resto, nombreOkB e2.nombre = true ∧ valorOkB e2.valor = true := by
      intro e2 h2
      exact hz e2 (by simp [h2])
    cases hv : e.valor with
    | flist l =>
      have h1 : MapeadorArchivo.lineaBase (entidadDe (e :: resto)) =
          MapeadorArchivo.lineaBase (entidadDe resto) := by
        simp [entidadDe, hv, MapeadorArchivo.lineaBase]
      have h2 : tokensDe (e :: resto) = tokensDe resto := by
        simp [tokensDe, hv, tokenCampo]
      rw [h1, h2, ih hresto]
    | base a =>
      have htok : tokenCampo e.nombre e.valor = some (e.nombre ++ ':' :: a.render) := by
        rw [hv]; rfl
      have hsep := token_sin_sep e _ he.1 he.2 htok
      have h1 : MapeadorArchivo.lineaBase (entidadDe (e :: resto)) =
          (e.nombre ++ ':' :: a.render) ++ ',' :: MapeadorArchivo.lineaBase (entidadDe resto) := by
        simp [entidadDe, hv, MapeadorArchivo.lineaBase]
      have h2 : tokensDe (e :: resto) = (e.nombre ++ ':' :: a.render) :: tokensDe resto := by
        simp [tokensDe, hv, tokenCampo]
      rw [h1, h2, splitOnChar_parte ',' _ _ hsep.1, ih hresto]
      rfl
    | nulo =>
      have htok : tokenCampo e.nombre e.valor = some (e.nombre ++ ':' :: e.nombre) := by
        rw [hv]; rfl
      have hsep := token_sin_sep e _ he.1 he.2 htok
      have h1 : MapeadorArchivo.lineaBase (entidadDe (e :: resto)) =
          (e.nombre ++ ':' :: e.nombre) ++ ',' :: MapeadorArchivo.lineaBase (entidadDe resto) := by
        simp [entidadDe, hv, MapeadorArchivo.lineaBase]
      have h2 : tokensDe (e :: resto) = (e.nombre ++ ':' :: e.nombre) :: tokensDe resto := by
        simp [tokensDe, hv, tokenCampo]
      rw [h1, h2, splitOnChar_parte ',' _ _ hsep.1, ih hresto]
      rfl
    | fecha d =>
      have htok : tokenCampo e.nombre e.valor = some (e.nombre ++ ':' :: d) := by
        rw [hv]; rfl
      have hsep := token_sin_sep e _ he.1 he.2 htok
      have h1 : MapeadorArchivo.lineaBase (entidadDe (e :: resto)) =
          (e.nombre ++ ':' :: d) ++ ',' :: MapeadorArchivo.lineaBase (entidadDe resto) := by
        simp [entidadDe, hv, MapeadorArchivo.lineaBase]
      have h2 : tokensDe (e :: resto) = (e.nombre ++ ':' :: d) :: tokensDe resto := by
        simp [tokensDe, hv, tokenCampo]
      rw [h1, h2, splitOnChar_parte ',' _ _ hsep.1, ih hresto]
      rfl

theorem clave_elemento_sin (n : List Char) (j : Nat) (hnom : nombreOkB n = true) :
    ',' ∉ n ++ '>' :: natRender j ∧ ':' ∉ n ++ '>' :: natRender j ∧
      '\n' ∉ n ++ '>' :: natRender j := by
  obtain ⟨hn1, hn2, hn3, hn4⟩ := nombreOk_no n hnom
  refine ⟨?_, ?_, ?_⟩ <;> intro hm <;> rcases List.mem_append.mp hm with h | h
  · exact hn2 h
  · rcases List.mem_cons.mp h with h | h
    · cases h
    · exact natRender_no_mem j ',' (by decide) h
  · exact hn3 h
  · rcases List.mem_cons.mp h with h | h
    · cases h
    · exact natRender_no_mem j ':' (by decide) h
  · exact hn4 h
  · rcases List.mem_cons.mp h with h | h
    · cases h
    · exact natRender_no_mem j '\n' (by decide) h

/-- One element-line body: no `\n`, and its splits on `,` and `:`. -/
theorem cuerpo_elemento_division (n : List Char) (j : Nat) (q : Rat)
    (hnom : nombreOkB n = true) :
    '\n' ∉ (n ++ '>' :: natRender j) ++ ':' :: (ratRender q ++ [',']) ∧
    splitOnChar ',' ((n ++ '>' :: natRender j) ++ ':' :: (ratRender q ++ [','])) =
      [(n ++ '>' :: natRender j) ++ ':' :: ratRender q, []] ∧
    splitOnChar ':' ((n ++ '>' :: natRender j) ++ ':' :: ratRender q) =
      [n ++ '>' :: natRender j, ratRender q] := by
  obtain ⟨hk1, hk2, hk3⟩ := clave_elemento_sin n j hnom
  have hr1 : ',' ∉ ratRender q := ratRender_no_mem q ',' (by decide) (by decide) (by decide)
  have hr2 : ':' ∉ ratRender q := ratRender_no_mem q ':' (by decide) (by decide) (by decide)
  have hr3 : '\n' ∉ ratRender q := ratRender_no_mem q '\n' (by decide) (by decide) (by decide)
  refine ⟨?_, ?_, ?_⟩
  · intro hm
    rcases List.mem_append.mp hm with h | h
    · exact hk3 h
    · rcases List.mem_cons.mp h with h | h
      · cases h
      · rcases List.mem_append.mp h with h | h
        · exact hr3 h
        · simp at h
  · have hforma : (n ++ '>' :: natRender j) ++ ':' :: (ratRender q ++ [',']) =
        ((n ++ '>' :: natRender j) ++ ':' :: ratRender q) ++ ',' :: [] := by
      simp
    rw [hforma]
    rw [splitOnChar_parte ',' _ _ ?_]
    · rfl
    · intro hm
      rcases List.mem_append.mp hm with h | h
      · exact hk1 h
      · rcases List.mem_cons.mp h with h | h
        · cases h
        · exact hr1 h
  · rw [splitOnChar_parte ':' _ _ hk2, splitOnChar_sin ':' _ hr2]

/-- Splitting the element lines of one list attribute on newlines. -/
theorem division_lineasElementos (n : List Char) (hnom : nombreOkB n = true) :
    ∀ (le : List (Option Rat)) (i : Nat) (restoTexto : List Char),
    splitOnChar '\n' (MapeadorArchivo.lineasElementos n i le ++ restoTexto) =
      cuerposElementos n i le ++ splitOnChar '\n' restoTexto := by
  intro le
  induction le with
  | nil => intro i restoTexto; rfl
  | cons x resto ih =>
    intro i restoTexto
    cases x with
    | none =>
      simp only [MapeadorArchivo.lineasElementos, cuerposElementos]
      exact ih i restoTexto
    | some q =>
      have hdiv := cuerpo_elemento_division n i q hnom
      have hforma : MapeadorArchivo.lineasElementos n i (some q :: resto) ++ restoTexto =
          ((n ++ '>' :: natRender i) ++ ':' :: (ratRender q ++ [','])) ++
            '\n' :: (MapeadorArchivo.lineasElementos n (i + 1) resto ++ restoTexto) := by
        simp [MapeadorArchivo.lineasElementos]
      rw [hforma, splitOnChar_parte '\n' _ _ hdiv.1]
      simp only [cuerposElementos]
      rw [ih (i + 1) restoTexto]
      rfl

theorem division_lineasLista (z : List Entrada)
    (hz : ∀ e ∈ z, nombreOkB e.nombre = true) :
    splitOnChar '\n' (MapeadorArchivo.lineasLista (entidadDe z)) = cuerposDe z ++ [[]] := by
  induction z with
  | nil => rfl
  | cons e resto ih =>
    have hresto : ∀ e2 ∈ resto, nombreOkB e2.nombre = true := fun e2 h2 => hz e2 (by simp [h2])
    have ihr := ih hresto
    cases hv : e.valor with
    | flist l =>
      have h1 : MapeadorArchivo.lineasLista (entidadDe (e :: resto)) =
          MapeadorArchivo.lineasElementos e.nombre 0 l ++
            MapeadorArchivo.lineasLista (entidadDe resto) := by
        simp [entidadDe, hv, MapeadorArchivo.lineasLista]
      have h2 : cuerposDe (e :: resto) = cuerposElementos e.nombre 0 l ++ cuerposDe resto := by
        simp [cuerposDe, hv]
      rw [h1, h2, division_lineasElementos e.nombre (hz e (by simp)) l 0 _, ihr]
      simp [List.append_assoc]
    | base a =>
      have h1 : MapeadorArchivo.lineasLista (entidadDe (e :: resto)) =
          MapeadorArchivo.lineasLista (entidadDe resto) := by
        simp [entidadDe, hv, MapeadorArchivo.lineasLista]
      have h2 : cuerposDe (e :: resto) = cuerposDe resto := by simp [cuerposDe, hv]
      rw [h1, h2, ihr]
    | nulo =>
      have h1 : MapeadorArchivo.lineasLista (entidadDe (e :: resto)) =
          MapeadorArchivo.lineasLista (entidadDe resto) := by
        simp [entidadDe, hv, MapeadorArchivo.lineasLista]
      have h2 : cuerposDe (e :: resto) = cuerposDe resto := by simp [cuerposDe, hv]
      rw [h1, h2, ihr]
    | fecha d =>
      have h1 : MapeadorArchivo.lineasLista (entidadDe (e :: resto)) =
          MapeadorArchivo.lineasLista (entidadDe resto) := by
        simp [entidadDe, hv, MapeadorArchivo.lineasLista]
      have h2 : cuerposDe (e :: resto) = cuerposDe resto := by simp [cuerposDe, hv]
      rw [h1, h2, ihr]

theorem nl_fuera_linea (n w resto : List Char) (hn : '\n' ∉ n) (hw : '\n' ∉ w)
    (hr : '\n' ∉ resto) : '\n' ∉ n ++ ':' :: (w ++ ',' :: resto) := by
  intro hm
  rcases List.mem_append.mp hm with h | h
  · exact hn h
  · rcases List.mem_cons.mp h with h | h
    · cases h
    · rcases List.mem_append.mp h with h | h
      · exact hw h
      · rcases List.mem_cons.mp h with h | h
        · cases h
        · exact hr h

theorem lineaBase_sin_nl (z : List Entrada)
    (hz : ∀ e ∈ z, nombreOkB e.nombre = true ∧ valorOkB e.valor = true) :
    '\n' ∉ MapeadorArchivo.lineaBase (entidadDe z) := by
  induction z with
  | nil => simp [entidadDe, MapeadorArchivo.lineaBase]
  | cons e resto ih =>
    have he := hz e (by simp)
    have hresto : ∀ e2 ∈ resto, nombreOkB e2.nombre = true ∧ valorOkB e2.valor = true :=
      fun e2 h2 => hz e2 (by simp [h2])
    have ihr := ih hresto
    have hn : '\n' ∉ e.nombre := (nombreOk_no e.nombre he.1).2.2.2
    cases hv : e.valor with
    | flist l =>
      simpa [entidadDe, hv, MapeadorArchivo.lineaBase] using ihr
    | base a =>
      have htok : tokenCampo e.nombre e.valor = some (e.nombre ++ ':' :: a.render) := by
        rw [hv]; rfl
      have hsep := token_sin_sep e _ he.1 he.2 htok
      have hw : '\n' ∉ a.render := fun h => hsep.2 (by simp [h])
      have h1 : MapeadorArchivo.lineaBase (entidadDe (e :: resto)) =
          e.nombre ++ ':' :: (a.render ++ ',' :: MapeadorArchivo.lineaBase (entidadDe resto)) := by
        simp [entidadDe, hv, MapeadorArchivo.lineaBase]
      rw [h1]
      exact nl_fuera_linea _ _ _ hn hw ihr
    | nulo =>
      have hw : '\n' ∉ e.nombre := hn
      have h1 : MapeadorArchivo.lineaBase (entidadDe (e :: resto)) =
          e.nombre ++ ':' :: (e.nombre ++ ',' :: MapeadorArchivo.lineaBase (entidadDe resto)) := by
        simp [entidadDe, hv, MapeadorArchivo.lineaBase]
      rw [h1]
      exact nl_fuera_linea _ _ _ hn hw ihr
    | fecha d =>
      have hval2 := he.2
      rw [hv] at hval2
      have hw : '\n' ∉ d := (sinSeparadores_no d hval2).2.2
      have h1 : MapeadorArchivo.lineaBase (entidadDe (e :: resto)) =
          e.nombre ++ ':' :: (d ++ ',' :: MapeadorArchivo.lineaBase (entidadDe resto)) := by
        simp [entidadDe, hv, MapeadorArchivo.lineaBase]
      rw [h1]
      exact nl_fuera_linea _ _ _ hn hw ihr

/-- Splitting the whole serialized entity on newlines: first line, element
line bodies, and the final empty piece. -/
theorem division_ir (z : List Entrada)
    (hz : ∀ e ∈ z, nombreOkB e.nombre = true ∧ valorOkB e.valor = true) :
    splitOnChar '\n' (MapeadorArchivo.ir_a_persistidor (entidadDe z)) =
      MapeadorArchivo.lineaBase (entidadDe z) :: (cuerposDe z ++ [[]]) := by
  unfold MapeadorArchivo.ir_a_persistidor
  rw [splitOnChar_parte '\n' _ _ (lineaBase_sin_nl z hz),
    division_lineasLista z (fun e he => (hz e he).1)]

/-! ### Processing lemmas for `venir_desde_persistidor` -/

theorem aplicarCampo_sin (sv : List (List Char)) : ∀ (t : Registro),
    (∀ par ∈ t, esInfijoB par.1 (sv.headD []) = false) →
    MapeadorArchivo.aplicarCampo sv t = some t := by
  intro t
  induction t with
  | nil => intro _; rfl
  | cons par resto ih =>
    intro h
    obtain ⟨n, v⟩ := par
    have hn : esInfijoB n (sv.headD []) = false := h (n, v) (by simp)
    simp only [MapeadorArchivo.aplicarCampo, hn, Bool.false_eq_true, if_false]
    rw [ih (fun p hp => h p (by simp [hp]))]
    rfl

theorem aplicarCampo_salta (sv : List (List Char)) (n : List Char) (v : FieldVal)
    (t : Registro) (h : esInfijoB n (sv.headD []) = false) :
    MapeadorArchivo.aplicarCampo sv ((n, v) :: t) =
      (MapeadorArchivo.aplicarCampo sv t).map (fun r => (n, v) :: r) := by
  simp only [MapeadorArchivo.aplicarCampo, h, Bool.false_eq_true, if_false]

theorem foldCampos_salta (campos : List (List Char)) (n : List Char) (v : FieldVal) :
    ∀ (t : Registro),
    (∀ c ∈ campos, esInfijoB n ((splitOnChar ':' c).headD []) = false) →
    foldlOpt MapeadorArchivo.procCampo ((n, v) :: t) campos =
      (foldlOpt MapeadorArchivo.procCampo t campos).map (fun r => (n, v) :: r) := by
  induction campos with
  | nil => intro t _; rfl
  | cons c campos ih =>
    intro t h
    have hc : esInfijoB n ((splitOnChar ':' c).headD []) = false := h c (by simp)
    have hpc : MapeadorArchivo.procCampo ((n, v) :: t) c =
        (MapeadorArchivo.procCampo t c).map (fun r => (n, v) :: r) :=
      aplicarCampo_salta _ n v t hc
    simp only [foldlOpt, hpc]
    cases hres : MapeadorArchivo.procCampo t c with
    | none => rfl
    | some t2 =>
      simp only [Option.map_some']
      exact ih t2 (fun c2 h2 => h c2 (by simp [h2]))

theorem procRegistro_salta (reg : List Char) (n : List Char) (v : FieldVal) (t : Registro)
    (h : ∀ c ∈ splitOnChar ',' reg, esInfijoB n ((splitOnChar ':' c).headD []) = false) :
    MapeadorArchivo.procRegistro ((n, v) :: t) reg =
      (MapeadorArchivo.procRegistro t reg).map (fun r => (n, v) :: r) := by
  unfold MapeadorArchivo.procRegistro
  by_cases hr : reg = []
  · simp [hr]
  · simp only [hr, if_false]
    exact foldCampos_salta _ n v t h

theorem foldRegistros_salta (lineas : List (List Char)) (n : List Char) (v : FieldVal) :
    ∀ (t : Registro),
    (∀ reg ∈ lineas, ∀ c ∈ splitOnChar ',' reg,
      esInfijoB n ((splitOnChar ':' c).headD []) = false) →
    foldlOpt MapeadorArchivo.procRegistro ((n, v) :: t) lineas =
      (foldlOpt MapeadorArchivo.procRegistro t lineas).map (fun r => (n, v) :: r) := by
  induction lineas with
  | nil => intro t _; rfl
  | cons reg lineas ih =>
    intro t h
    have hpr := procRegistro_salta reg n v t (h reg (by simp))
    simp only [foldlOpt, hpr]
    cases hres : MapeadorArchivo.procRegistro t reg with
    | none => rfl
    | some t2 =>
      simp only [Option.map_some']
      exact ih t2 (fun r2 h2 => h r2 (by simp [h2]))

theorem foldlOpt_append {α β : Type} (f : β → α → Option β) (l1 l2 : List α) :
    ∀ (b : β), foldlOpt f b (l1 ++ l2) =
      match foldlOpt f b l1 with
      | none => none
      | some b2 => foldlOpt f b2 l2 := by
  induction l1 with
  | nil => intro b; rfl
  | cons a l1 ih =>
    intro b
    simp only [List.cons_append, foldlOpt]
    cases f b a with
    | none => rfl
    | some b2 => exact ih b2

theorem aplicarCampo_cabeza_int (n w : List Char) (m k : Int) (t : Registro)
    (hresto : ∀ par ∈ t, esInfijoB par.1 n = false) (hw : intParse w = some k) :
    MapeadorArchivo.aplicarCampo [n, w] ((n, FieldVal.base (AtomVal.aint m)) :: t) =
      some ((n, FieldVal.base (AtomVal.aint k)) :: t) := by
  have htd : Mapeador.tipo_dato nombreInt w = some (some (AtomVal.aint k)) := by
    show (intParse w).map (fun j => some (AtomVal.aint j)) = some (some (AtomVal.aint k))
    rw [hw]
    rfl
  have hsin := aplicarCampo_sin [n, w] t hresto
  simp only [MapeadorArchivo.aplicarCampo, List.headD_cons, FieldVal.nombreTipo]
  rw [if_pos (esInfijoB_self n), if_pos (by decide : nombreInt ∈ lista_tipos_base)]
  simp only [show ([n, w] : List (List Char))[1]? = some w from rfl, htd, hsin,
    Option.map_some']

theorem aplicarCampo_cabeza_str (n w : List Char) (s : List Char) (t : Registro)
    (hresto : ∀ par ∈ t, esInfijoB par.1 n = false) :
    MapeadorArchivo.aplicarCampo [n, w] ((n, FieldVal.base (AtomVal.astr s)) :: t) =
      some ((n, FieldVal.base (AtomVal.astr w)) :: t) := by
  have htd : Mapeador.tipo_dato nombreStr w = some (some (AtomVal.astr w)) := rfl
  have hsin := aplicarCampo_sin [n, w] t hresto
  simp only [MapeadorArchivo.aplicarCampo, List.headD_cons, FieldVal.nombreTipo]
  rw [if_pos (esInfijoB_self n), if_pos (by decide : nombreStr ∈ lista_tipos_base)]
  simp only [show ([n, w] : List (List Char))[1]? = some w from rfl, htd, hsin,
    Option.map_some']

theorem aplicarCampo_cabeza_float (n w : List Char) (m k : Rat) (t : Registro)
    (hresto : ∀ par ∈ t, esInfijoB par.1 n = false) (hw : ratParse w = some k) :
    MapeadorArchivo.aplicarCampo [n, w] ((n, FieldVal.base (AtomVal.afloat m)) :: t) =
      some ((n, FieldVal.base (AtomVal.afloat k)) :: t) := by
  have htd : Mapeador.tipo_dato nombreFloat w = some (some (AtomVal.afloat k)) := by
    show (ratParse w).map (fun j => some (AtomVal.afloat j)) = some (some (AtomVal.afloat k))
    rw [hw]
    rfl
  have hsin := aplicarCampo_sin [n, w] t hresto
  simp only [MapeadorArchivo.aplicarCampo, List.headD_cons, FieldVal.nombreTipo]
  rw [if_pos (esInfijoB_self n), if_pos (by decide : nombreFloat ∈ lista_tipos_base)]
  simp only [show ([n, w] : List (List Char))[1]? = some w from rfl, htd, hsin,
    Option.map_some']

theorem aplicarCampo_cabeza_nulo (n w : List Char) (t : Registro)
    (hresto : ∀ par ∈ t, esInfijoB par.1 n = false) :
    MapeadorArchivo.aplicarCampo [n, w] ((n, FieldVal.nulo) :: t) =
      some ((n, FieldVal.nulo) :: t) := by
  have hsin := aplicarCampo_sin [n, w] t hresto
  simp only [MapeadorArchivo.aplicarCampo, List.headD_cons, FieldVal.nombreTipo]
  rw [if_pos (esInfijoB_self n), if_neg (by decide : ¬ nombreNoneType ∈ lista_tipos_base)]
  simp only [hsin, Option.map_some']

theorem aplicarCampo_cabeza_lista (n w ds : List Char) (l : List (Option Rat)) (q : Rat)
    (t : Registro) (hresto : ∀ par ∈ t, esInfijoB par.1 (n ++ '>' :: ds) = false)
    (hw : ratParse w = some q) :
    MapeadorArchivo.aplicarCampo [n ++ '>' :: ds, w] ((n, FieldVal.flist l) :: t) =
      some ((n, FieldVal.flist (l ++ [some q])) :: t) := by
  have hsin := aplicarCampo_sin [n ++ '>' :: ds, w] t hresto
  simp only [MapeadorArchivo.aplicarCampo, List.headD_cons, FieldVal.nombreTipo]
  rw [if_pos (esInfijoB_append_right n ('>' :: ds)),
    if_neg (by decide : ¬ nombreList ∈ lista_tipos_base)]
  simp only [show ([n ++ '>' :: ds, w] : List (List Char))[1]? = some w from rfl, hw, hsin,
    Option.map_some']

theorem medioCampo_nombre (e : Entrada) : (medioCampo e).1 = e.nombre := by
  unfold medioCampo restauradoCampo
  obtain ⟨n, tv, ev⟩ := e
  cases tv <;> cases ev <;> rfl

theorem restauradoCampo_nombre (e : Entrada) : (restauradoCampo e).1 = e.nombre := by
  unfold restauradoCampo
  obtain ⟨n, tv, ev⟩ := e
  cases tv <;> cases ev <;> rfl

theorem procCampo_cabeza (e : Entrada) (t : Registro) (tok : List Char)
    (hforma : formaOkB e = true) (hnom : nombreOkB e.nombre = true)
    (hval : valorOkB e.valor = true)
    (htok : tokenCampo e.nombre e.valor = some tok)
    (hresto : ∀ par ∈ t, esInfijoB par.1 e.nombre = false) :
    MapeadorArchivo.procCampo ((e.nombre, e.plantilla) :: t) tok = some (medioCampo e :: t) := by
  obtain ⟨n, tv, ev⟩ := e
  dsimp only at hforma hnom hval htok hresto ⊢
  obtain ⟨hn1, hn2, hn3, hn4⟩ := nombreOk_no n hnom
  unfold MapeadorArchivo.procCampo
  cases tv with
  | base a =>
    cases a with
    | aint m =>
      cases ev with
      | base a2 =>
        cases a2 with
        | aint k =>
          simp only [tokenCampo, Option.some.injEq] at htok
          subst htok
          simp only [AtomVal.render]
          have hsv : splitOnChar ':' (n ++ ':' :: intRender k) = [n, intRender k] := by
            rw [splitOnChar_parte ':' _ _ hn3,
              splitOnChar_sin ':' _ (intRender_no_mem k ':' (by decide) (by decide))]
          rw [hsv]
          simp only [medioCampo, restauradoCampo]
          exact aplicarCampo_cabeza_int n _ m k t hresto (intParse_intRender k)
        | astr s => exact absurd hforma (by simp [formaOkB])
        | afloat q => exact absurd hforma (by simp [formaOkB])
        | abool b => exact absurd hforma (by simp [formaOkB])
      | nulo => exact absurd hforma (by simp [formaOkB])
      | fecha d => exact absurd hforma (by simp [formaOkB])
      | flist l => exact absurd hforma (by simp [formaOkB])
    | astr s =>
      cases ev with
      | base a2 =>
        cases a2 with
        | astr s2 =>
          simp only [tokenCampo, Option.some.injEq] at htok
          subst htok
          simp only [AtomVal.render]
          have hval2 : sinSeparadores s2 = true := by simpa [valorOkB] using hval
          have hsv : splitOnChar ':' (n ++ ':' :: s2) = [n, s2] := by
            rw [splitOnChar_parte ':' _ _ hn3,
              splitOnChar_sin ':' _ (sinSeparadores_no s2 hval2).2.1]
          rw [hsv]
          simp only [medioCampo, restauradoCampo]
          exact aplicarCampo_cabeza_str n _ s t hresto
        | aint k => exact absurd hforma (by simp [formaOkB])
        | afloat q => exact absurd hforma (by simp [formaOkB])
        | abool b => exact absurd hforma (by simp [formaOkB])
      | nulo => exact absurd hforma (by simp [formaOkB])
      | fecha d => exact absurd hforma (by simp [formaOkB])
      | flist l => exact absurd hforma (by simp [formaOkB])
    | afloat q0 =>
      cases ev with
      | base a2 =>
        cases a2 with
        | afloat k =>
          simp only [tokenCampo, Option.some.injEq] at htok
          subst htok
          simp only [AtomVal.render]
          have hsv : splitOnChar ':' (n ++ ':' :: ratRender k) = [n, ratRender k] := by
            rw [splitOnChar_parte ':' _ _ hn3,
              splitOnChar_sin ':' _ (ratRender_no_mem k ':' (by decide) (by decide) (by decide))]
          rw [hsv]
          simp only [medioCampo, restauradoCampo]
          exact aplicarCampo_cabeza_float n _ q0 k t hresto (ratParse_ratRender k)
        | aint k => exact absurd hforma (by simp [formaOkB])
        | astr s => exact absurd hforma (by simp [formaOkB])
        | abool b => exact absurd hforma (by simp [formaOkB])
      | nulo => exact absurd hforma (by simp [formaOkB])
      | fecha d => exact absurd hforma (by simp [formaOkB])
      | flist l => exact absurd hforma (by simp [formaOkB])
    | abool b =>
      cases ev <;> first
        | exact absurd hforma (by simp [formaOkB])
        | (rename_i a2; cases a2 <;> exact absurd hforma (by simp [formaOkB]))
  | nulo =>
    cases ev with
    | nulo =>
      simp only [tokenCampo, Option.some.injEq] at htok
      subst htok
      have hsv : splitOnChar ':' (n ++ ':' :: n) = [n, n] := by
        rw [splitOnChar_parte ':' _ _ hn3, splitOnChar_sin ':' _ hn3]
      rw [hsv]
      simp only [medioCampo, restauradoCampo]
      exact aplicarCampo_cabeza_nulo n _ t hresto
    | fecha d =>
      simp only [tokenCampo, Option.some.injEq] at htok
      subst htok
      have hval2 : sinSeparadores d = true := by simpa [valorOkB] using hval
      have hsv : splitOnChar ':' (n ++ ':' :: d) = [n, d] := by
        rw [splitOnChar_parte ':' _ _ hn3,
          splitOnChar_sin ':' _ (sinSeparadores_no d hval2).2.1]
      rw [hsv]
      simp only [medioCampo, restauradoCampo]
      exact aplicarCampo_cabeza_nulo n _ t hresto
    | base a2 => cases a2 <;> exact absurd hforma (by simp [formaOkB])
    | flist l => exact absurd hforma (by simp [formaOkB])
  | fecha d =>
    cases ev with
    | base a2 => cases a2 <;> exact absurd hforma (by simp [formaOkB])
    | nulo => exact absurd hforma (by simp [formaOkB])
    | fecha d2 => exact absurd hforma (by simp [formaOkB])
    | flist l => exact absurd hforma (by simp [formaOkB])
  | flist l =>
    cases ev with
    | base a2 => cases a2 <;> exact absurd hforma (by simp [formaOkB])
    | nulo => exact absurd hforma (by simp [formaOkB])
    | fecha d2 => exact absurd hforma (by simp [formaOkB])
    | flist l2 => exact absurd htok (by simp [tokenCampo])

theorem pares_cabeza (e : Entrada) (resto : List Entrada)
    (h : paresSinColision (e :: resto) = true) :
    (∀ e2 ∈ resto, sinColisionB e e2 = true ∧ sinColisionB e2 e = true) ∧
      paresSinColision resto = true := by
  simp only [paresSinColision, Bool.and_eq_true, List.all_eq_true] at h
  exact ⟨fun e2 h2 => by simpa using h.1 e2 h2, h.2⟩

theorem sinColision_clave (a b : Entrada) (h : sinColisionB a b = true)
    (k : List Char) (hk : k ∈ clavesCampo b.nombre b.valor) :
    esInfijoB a.nombre k = false := by
  have h2 := List.all_eq_true.mp h k hk
  simpa using h2

theorem clave_propia (b : Entrada) (hb : ∀ l, b.valor ≠ FieldVal.flist l) :
    b.nombre ∈ clavesCampo b.nombre b.valor := by
  cases hv : b.valor with
  | flist l => exact absurd hv (hb l)
  | base a => simp [clavesCampo]
  | nulo => simp [clavesCampo]
  | fecha d => simp [clavesCampo]

theorem clave_elemento_mem (n : List Char) (le : List (Option Rat)) (j : Nat)
    (hj : j < (le.filterMap id).length) :
    n ++ '>' :: natRender j ∈ clavesCampo n (FieldVal.flist le) := by
  simp only [clavesCampo, List.mem_map, List.mem_range]
  exact ⟨j, hj, rfl⟩

theorem tokenCampo_no_flist (e : Entrada) (tok : List Char)
    (h : tokenCampo e.nombre e.valor = some tok) : ∀ l, e.valor ≠ FieldVal.flist l := by
  intro l he
  rw [he] at h
  cases h

theorem tokenCampo_none_flist (e : Entrada) (h : tokenCampo e.nombre e.valor = none) :
    ∃ l, e.valor = FieldVal.flist l := by
  cases hv : e.valor with
  | flist l => exact ⟨l, rfl⟩
  | base a => rw [hv] at h; cases h
  | nulo => rw [hv] at h; cases h
  | fecha d => rw [hv] at h; cases h

theorem formaOk_flist (e : Entrada) (hforma : formaOkB e = true) (l : List (Option Rat))
    (hv : e.valor = FieldVal.flist l) : ∃ lt, e.plantilla = FieldVal.flist lt := by
  obtain ⟨n, tv, ev⟩ := e
  dsimp only at hv ⊢
  subst hv
  cases tv with
  | flist lt => exact ⟨lt, rfl⟩
  | base a => cases a <;> exact absurd hforma (by simp [formaOkB])
  | nulo => exact absurd hforma (by simp [formaOkB])
  | fecha d => exact absurd hforma (by simp [formaOkB])

theorem clave_token_mem (z : List Entrada)
    (hz : ∀ e ∈ z, nombreOkB e.nombre = true ∧ valorOkB e.valor = true)
    (c : List Char) (hc : c ∈ tokensDe z) :
    ∃ e2 ∈ z, tokenCampo e2.nombre e2.valor = some c ∧
      (splitOnChar ':' c).headD [] = e2.nombre ∧ (∀ l, e2.valor ≠ FieldVal.flist l) := by
  obtain ⟨e2, he2, htok⟩ := List.mem_filterMap.mp hc
  exact ⟨e2, he2, htok, token_clave e2 c (hz e2 he2).1 (hz e2 he2).2 htok,
    tokenCampo_no_flist e2 c htok⟩

/-- Processing the first serialized line restores every base-typed attribute
and leaves list attributes as in the template. -/
theorem fold_tokens (z : List Entrada) :
    (∀ e ∈ z, formaOkB e = true ∧ nombreOkB e.nombre = true ∧ valorOkB e.valor = true) →
    paresSinColision z = true →
    foldlOpt MapeadorArchivo.procCampo (plantillaDe z) (tokensDe z ++ [[]]) =
      some (mediosDe z) := by
  induction z with
  | nil => intro _ _; rfl
  | cons e resto ih =>
    intro hz hcol
    have he := hz e (by simp)
    have hrestoz : ∀ e2 ∈ resto, formaOkB e2 = true ∧ nombreOkB e2.nombre = true ∧
        valorOkB e2.valor = true := fun e2 h2 => hz e2 (by simp [h2])
    have hrestonv : ∀ e2 ∈ resto, nombreOkB e2.nombre = true ∧ valorOkB e2.valor = true :=
      fun e2 h2 => ⟨(hrestoz e2 h2).2.1, (hrestoz e2 h2).2.2⟩
    obtain ⟨hpar, hcolresto⟩ := pares_cabeza e resto hcol
    have ihr := ih hrestoz hcolresto
    have hn1 : e.nombre ≠ [] := (nombreOk_no _ he.2.1).1
    have hskip : ∀ c ∈ tokensDe resto ++ [[]],
        esInfijoB e.nombre ((splitOnChar ':' c).headD []) = false := by
      intro c hc
      rcases List.mem_append.mp hc with h | h
      · obtain ⟨e2, he2, htok2, hkey, hnf⟩ := clave_token_mem resto hrestonv c h
        rw [hkey]
        exact sinColision_clave e e2 (hpar e2 he2).1 e2.nombre (clave_propia e2 hnf)
      · have hcn : c = [] := by simpa using h
        subst hcn
        exact esInfijoB_nil_falso _ hn1
    cases htokq : tokenCampo e.nombre e.valor with
    | none =>
      obtain ⟨l, hvfl⟩ := tokenCampo_none_flist e htokq
      obtain ⟨lt, hpfl⟩ := formaOk_flist e he.1 l hvfl
      have h1 : tokensDe (e :: resto) = tokensDe resto := by
        simp [tokensDe, htokq]
      have h2 : plantillaDe (e :: resto) = (e.nombre, e.plantilla) :: plantillaDe resto := rfl
      rw [h1, h2, foldCampos_salta _ e.nombre e.plantilla (plantillaDe resto) hskip, ihr]
      have h3 : mediosDe (e :: resto) = (e.nombre, e.plantilla) :: mediosDe resto := by
        simp [mediosDe, medioCampo, hpfl]
      rw [h3]
      rfl
    | some tok =>
      have h1 : tokensDe (e :: resto) = tok :: tokensDe resto := by
        simp [tokensDe, htokq]
      have h2 : plantillaDe (e :: resto) = (e.nombre, e.plantilla) :: plantillaDe resto := rfl
      have hlado : ∀ par ∈ plantillaDe resto, esInfijoB par.1 e.nombre = false := by
        intro par hpar2
        obtain ⟨e2, he2, hpar3⟩ := List.mem_map.mp hpar2
        rw [← hpar3]
        exact sinColision_clave e2 e (hpar e2 he2).2 e.nombre
          (clave_propia e (tokenCampo_no_flist e tok htokq))
      have hprim := procCampo_cabeza e (plantillaDe resto) tok he.1 he.2.1 he.2.2 htokq hlado
      rw [h1, h2]
      simp only [List.cons_append, foldlOpt, hprim]
      have hmedn : (medioCampo e).1 = e.nombre := medioCampo_nombre e
      rw [show medioCampo e = ((medioCampo e).1, (medioCampo e).2) from rfl, hmedn]
      rw [show (tokensDe resto).append [[]] = tokensDe resto ++ [[]] from rfl]
      rw [foldCampos_salta _ e.nombre (medioCampo e).2 (plantillaDe resto) hskip, ihr]
      have h3 : mediosDe (e :: resto) = (e.nombre, (medioCampo e).2) :: mediosDe resto := by
        have : medioCampo e = (e.nombre, (medioCampo e).2) := by
          rw [← hmedn]
        simp [mediosDe]
        rw [← this]
      rw [h3]
      rfl

theorem procRegistro_elemento (n : List Char) (j : Nat) (q : Rat) (lt : List (Option Rat))
    (t : Registro) (hnom : nombreOkB n = true)
    (hresto : ∀ par ∈ t, esInfijoB par.1 (n ++ '>' :: natRender j) = false)
    (hnn : ∀ par ∈ t, par.1 ≠ []) :
    MapeadorArchivo.procRegistro ((n, FieldVal.flist lt) :: t)
        ((n ++ '>' :: natRender j) ++ ':' :: (ratRender q ++ [','])) =
      some ((n, FieldVal.flist (lt ++ [some q])) :: t) := by
  have hdiv := cuerpo_elemento_division n j q hnom
  have hne : (n ++ '>' :: natRender j) ++ ':' :: (ratRender q ++ [',']) ≠ [] := by simp
  unfold MapeadorArchivo.procRegistro
  rw [if_neg hne, hdiv.2.1]
  have hpc : MapeadorArchivo.procCampo ((n, FieldVal.flist lt) :: t)
      ((n ++ '>' :: natRender j) ++ ':' :: ratRender q) =
      some ((n, FieldVal.flist (lt ++ [some q])) :: t) := by
    unfold MapeadorArchivo.procCampo
    rw [hdiv.2.2]
    exact aplicarCampo_cabeza_lista n (ratRender q) (natRender j) lt q t hresto
      (ratParse_ratRender q)
  have hpc2 : MapeadorArchivo.procCampo ((n, FieldVal.flist (lt ++ [some q])) :: t) [] =
      some ((n, FieldVal.flist (lt ++ [some q])) :: t) := by
    unfold MapeadorArchivo.procCampo
    apply aplicarCampo_sin
    intro par hpar
    rcases List.mem_cons.mp hpar with h | h
    · rw [h]
      exact esInfijoB_nil_falso n (nombreOk_no n hnom).1
    · exact esInfijoB_nil_falso par.1 (hnn par h)
  simp only [foldlOpt, hpc, hpc2]

theorem fold_elementos (n : List Char) (hnom : nombreOkB n = true) :
    ∀ (le : List (Option Rat)) (i : Nat) (lt : List (Option Rat)) (t : Registro),
    (∀ j, i ≤ j → j < i + (le.filterMap id).length →
      ∀ par ∈ t, esInfijoB par.1 (n ++ '>' :: natRender j) = false) →
    (∀ par ∈ t, par.1 ≠ []) →
    foldlOpt MapeadorArchivo.procRegistro ((n, FieldVal.flist lt) :: t)
        (cuerposElementos n i le) =
      some ((n, FieldVal.flist (lt ++ (le.filterMap id).map some)) :: t) := by
  intro le
  induction le with
  | nil => intro i lt t _ _; simp [cuerposElementos, foldlOpt]
  | cons x resto ih =>
    intro i lt t h hnn
    cases x with
    | none =>
      exact ih i lt t h hnn
    | some q =>
      have hlen : ((some q :: resto).filterMap id).length = (resto.filterMap id).length + 1 := by
        simp [List.filterMap_cons]
      have hprim := procRegistro_elemento n i q lt t hnom
        (h i (le_refl i) (by omega) ) hnn
      simp only [cuerposElementos, foldlOpt, hprim]
      have hrec := ih (i + 1) (lt ++ [some q]) t
        (fun j hj1 hj2 => h j (by omega) (by rw [hlen]; omega)) hnn
      rw [hrec]
      have hfin : (lt ++ [some q]) ++ (resto.filterMap id).map some =
          lt ++ ((some q :: resto).filterMap id).map some := by
        simp [List.filterMap_cons, List.append_assoc]
      rw [hfin]

theorem cuerpo_mem (n : List Char) : ∀ (le : List (Option Rat)) (i : Nat) (c : List Char),
    c ∈ cuerposElementos n i le →
    ∃ j q, i ≤ j ∧ j < i + (le.filterMap id).length ∧
      c = (n ++ '>' :: natRender j) ++ ':' :: (ratRender q ++ [',']) := by
  intro le
  induction le with
  | nil => intro i c hc; simp [cuerposElementos] at hc
  | cons x resto ih =>
    intro i c hc
    cases x with
    | none =>
      obtain ⟨j, q, h1, h2, h3⟩ := ih i c (by simpa [cuerposElementos] using hc)
      exact ⟨j, q, h1, by simpa [List.filterMap_cons] using h2, h3⟩
    | some q0 =>
      simp only [cuerposElementos, List.mem_cons] at hc
      rcases hc with h | h
      · exact ⟨i, q0, le_refl i, by simp [List.filterMap_cons], h⟩
      · obtain ⟨j, q, h1, h2, h3⟩ := ih (i + 1) c h
        exact ⟨j, q, by omega, by simp [List.filterMap_cons]; omega, h3⟩

theorem cuerposDe_mem (z : List Entrada) (c : List Char) (hc : c ∈ cuerposDe z) :
    ∃ e2 ∈ z, ∃ le, e2.valor = FieldVal.flist le ∧ ∃ j q,
      j < (le.filterMap id).length ∧
      c = (e2.nombre ++ '>' :: natRender j) ++ ':' :: (ratRender q ++ [',']) := by
  obtain ⟨e2, he2, hmem⟩ := List.mem_flatMap.mp hc
  refine ⟨e2, he2, ?_⟩
  cases hv : e2.valor with
  | flist le =>
    rw [hv] at hmem
    obtain ⟨j, q, h1, h2, h3⟩ := cuerpo_mem e2.nombre le 0 c hmem
    exact ⟨le, rfl, j, q, by omega, h3⟩
  | base a => rw [hv] at hmem; simp at hmem
  | nulo => rw [hv] at hmem; simp at hmem
  | fecha d => rw [hv] at hmem; simp at hmem

theorem formaOk_flist_rev (e : Entrada) (hforma : formaOkB e = true) (lt : List (Option Rat))
    (hp : e.plantilla = FieldVal.flist lt) : ∃ le, e.valor = FieldVal.flist le := by
  obtain ⟨n, tv, ev⟩ := e
  dsimp only at hp ⊢
  subst hp
  cases ev with
  | flist le => exact ⟨le, rfl⟩
  | base a => cases a <;> exact absurd hforma (by simp [formaOkB])
  | nulo => exact absurd hforma (by simp [formaOkB])
  | fecha d => exact absurd hforma (by simp [formaOkB])

theorem mediosDe_nombres (z : List Entrada) (hz : ∀ e ∈ z, nombreOkB e.nombre = true) :
    ∀ par ∈ mediosDe z, par.1 ≠ [] := by
  intro par hpar
  obtain ⟨e2, he2, hpar2⟩ := List.mem_map.mp hpar
  rw [← hpar2, medioCampo_nombre]
  exact (nombreOk_no _ (hz e2 he2)).1

theorem hskip_de_cuerpos (a : Entrada) (z : List Entrada)
    (ha : a.nombre ≠ [])
    (hz : ∀ e2 ∈ z, nombreOkB e2.nombre = true)
    (hcol : ∀ e2 ∈ z, sinColisionB a e2 = true) :
    ∀ reg ∈ cuerposDe z, ∀ c ∈ splitOnChar ',' reg,
      esInfijoB a.nombre ((splitOnChar ':' c).headD []) = false := by
  intro reg hreg c hc
  obtain ⟨e2, he2, le, hvle, j, q, hj, hbody⟩ := cuerposDe_mem z reg hreg
  have hdiv := cuerpo_elemento_division e2.nombre j q (hz e2 he2)
  rw [hbody, hdiv.2.1] at hc
  rcases List.mem_cons.mp hc with h | h
  · subst h
    rw [hdiv.2.2]
    show esInfijoB a.nombre (e2.nombre ++ '>' :: natRender j) = false
    refine sinColision_clave a e2 (hcol e2 he2) _ ?_
    rw [hvle]
    exact clave_elemento_mem e2.nombre le j hj
  · have hcn : c = [] := by simpa using h
    subst hcn
    exact esInfijoB_nil_falso _ ha

/-- Processing the element lines appends every serialized list element, in
order, to the corresponding (list) attribute. -/
theorem fold_cuerpos (z : List Entrada) :
    (∀ e ∈ z, formaOkB e = true ∧ nombreOkB e.nombre = true ∧ valorOkB e.valor = true) →
    paresSinColision z = true →
    foldlOpt MapeadorArchivo.procRegistro (mediosDe z) (cuerposDe z) =
      some (restauradoDe z) := by
  induction z with
  | nil => intro _ _; rfl
  | cons e resto ih =>
    intro hz hcol
    have he := hz e (by simp)
    have hrestoz : ∀ e2 ∈ resto, formaOkB e2 = true ∧ nombreOkB e2.nombre = true ∧
        valorOkB e2.valor = true := fun e2 h2 => hz e2 (by simp [h2])
    obtain ⟨hpar, hcolresto⟩ := pares_cabeza e resto hcol
    have ihr := ih hrestoz hcolresto
    have hn1 : e.nombre ≠ [] := (nombreOk_no _ he.2.1).1
    have hskipresto : ∀ reg ∈ cuerposDe resto, ∀ c ∈ splitOnChar ',' reg,
        esInfijoB e.nombre ((splitOnChar ':' c).headD []) = false :=
      hskip_de_cuerpos e resto hn1 (fun e2 h2 => (hrestoz e2 h2).2.1)
        (fun e2 h2 => (hpar e2 h2).1)
    have hmednombres := mediosDe_nombres resto (fun e2 h2 => (hrestoz e2 h2).2.1)
    cases hp : e.plantilla with
    | flist lt =>
      obtain ⟨le, hvle⟩ := formaOk_flist_rev e he.1 lt hp
      have hmed : medioCampo e = (e.nombre, FieldVal.flist lt) := by
        simp [medioCampo, hp]
      have hcuerpos : cuerposDe (e :: resto) =
          cuerposElementos e.nombre 0 le ++ cuerposDe resto := by
        simp [cuerposDe, hvle]
      have hmedios : mediosDe (e :: resto) = (e.nombre, FieldVal.flist lt) :: mediosDe resto := by
        simp [mediosDe]
        rw [hmed]
      rw [hcuerpos, hmedios, foldlOpt_append]
      have hprim := fold_elementos e.nombre he.2.1 le 0 lt (mediosDe resto)
        (fun j hj1 hj2 par hpar2 => by
          obtain ⟨e2, he2, hpar3⟩ := List.mem_map.mp hpar2
          rw [← hpar3, medioCampo_nombre]
          refine sinColision_clave e2 e (hpar e2 he2).2 _ ?_
          rw [hvle]
          exact clave_elemento_mem e.nombre le j (by omega))
        hmednombres
      rw [hprim]
      dsimp only
      have hrest : restauradoCampo e = (e.nombre, FieldVal.flist (lt ++ (le.filterMap id).map some)) := by
        obtain ⟨n, tv, ev⟩ := e
        dsimp only at hp hvle ⊢
        subst hp
        subst hvle
        rfl
      rw [foldRegistros_salta _ e.nombre _ (mediosDe resto) hskipresto, ihr]
      have hfin : restauradoDe (e :: resto) = restauradoCampo e :: restauradoDe resto := rfl
      rw [hfin, hrest]
      rfl
    | base a =>
      have hnv : ∀ l, e.valor ≠ FieldVal.flist l := by
        intro l hv
        obtain ⟨lt2, hp2⟩ := formaOk_flist e he.1 l hv
        rw [hp] at hp2
        cases hp2
      have hcuerpos : cuerposDe (e :: resto) = cuerposDe resto := by
        cases hv : e.valor with
        | flist l => exact absurd hv (hnv l)
        | base a2 => simp [cuerposDe, hv]
        | nulo => simp [cuerposDe, hv]
        | fecha d => simp [cuerposDe, hv]
      have hmed : medioCampo e = restauradoCampo e := by simp [medioCampo, hp]
      have hmedios : mediosDe (e :: resto) =
          (e.nombre, (restauradoCampo e).2) :: mediosDe resto := by
        simp [mediosDe]
        rw [hmed, show restauradoCampo e = ((restauradoCampo e).1, (restauradoCampo e).2)
          from rfl, restauradoCampo_nombre]
      rw [hcuerpos, hmedios,
        foldRegistros_salta _ e.nombre _ (mediosDe resto) hskipresto, ihr]
      have hfin : restauradoDe (e :: resto) = restauradoCampo e :: restauradoDe resto := rfl
      rw [hfin, show restauradoCampo e = ((restauradoCampo e).1, (restauradoCampo e).2)
        from rfl, restauradoCampo_nombre]
      rfl
    | nulo =>
      have hnv : ∀ l, e.valor ≠ FieldVal.flist l := by
        intro l hv
        obtain ⟨lt2, hp2⟩ := formaOk_flist e he.1 l hv
        rw [hp] at hp2
        cases hp2
      have hcuerpos : cuerposDe (e :: resto) = cuerposDe resto := by
        cases hv : e.valor with
        | flist l => exact absurd hv (hnv l)
        | base a2 => simp [cuerposDe, hv]
        | nulo => simp [cuerposDe, hv]
        | fecha d => simp [cuerposDe, hv]
      have hmed : medioCampo e = restauradoCampo e := by simp [medioCampo, hp]
      have hmedios : mediosDe (e :: resto) =
          (e.nombre, (restauradoCampo e).2) :: mediosDe resto := by
        simp [mediosDe]
        rw [hmed, show restauradoCampo e = ((restauradoCampo e).1, (restauradoCampo e).2)
          from rfl, restauradoCampo_nombre]
      rw [hcuerpos, hmedios,
        foldRegistros_salta _ e.nombre _ (mediosDe resto) hskipresto, ihr]
      have hfin : restauradoDe (e :: resto) = restauradoCampo e :: restauradoDe resto := rfl
      rw [hfin, show restauradoCampo e = ((restauradoCampo e).1, (restauradoCampo e).2)
        from rfl, restauradoCampo_nombre]
      rfl
    | fecha d =>
      have hnv : ∀ l, e.valor ≠ FieldVal.flist l := by
        intro l hv
        obtain ⟨lt2, hp2⟩ := formaOk_flist e he.1 l hv
        rw [hp] at hp2
        cases hp2
      have hcuerpos : cuerposDe (e :: resto) = cuerposDe resto := by
        cases hv : e.valor with
        | flist l => exact absurd hv (hnv l)
        | base a2 => simp [cuerposDe, hv]
        | nulo => simp [cuerposDe, hv]
        | fecha d2 => simp [cuerposDe, hv]
      have hmed : medioCampo e = restauradoCampo e := by simp [medioCampo, hp]
      have hmedios : mediosDe (e :: resto) =
          (e.nombre, (restauradoCampo e).2) :: mediosDe resto := by
        simp [mediosDe]
        rw [hmed, show restauradoCampo e = ((restauradoCampo e).1, (restauradoCampo e).2)
          from rfl, restauradoCampo_nombre]
      rw [hcuerpos, hmedios,
        foldRegistros_salta _ e.nombre _ (mediosDe resto) hskipresto, ihr]
      have hfin : restauradoDe (e :: resto) = restauradoCampo e :: restauradoDe resto := rfl
      rw [hfin, show restauradoCampo e = ((restauradoCampo e).1, (restauradoCampo e).2)
        from rfl, restauradoCampo_nombre]
      rfl

theorem lineaBase_vacia (z : List Entrada)
    (hz : ∀ e ∈ z, formaOkB e = true)
    (hb : MapeadorArchivo.lineaBase (entidadDe z) = []) : mediosDe z = plantillaDe z := by
  induction z with
  | nil => rfl
  | cons e resto ih =>
    cases hv : e.valor with
    | flist l =>
      obtain ⟨lt, hp⟩ := formaOk_flist e (hz e (by simp)) l hv
      have hb2 : MapeadorArchivo.lineaBase (entidadDe resto) = [] := by
        simpa [entidadDe, hv, MapeadorArchivo.lineaBase] using hb
      have ihr := ih (fun e2 h2 => hz e2 (by simp [h2])) hb2
      have hmed : medioCampo e = (e.nombre, e.plantilla) := by simp [medioCampo, hp]
      show medioCampo e :: mediosDe resto = (e.nombre, e.plantilla) :: plantillaDe resto
      rw [hmed, ihr]
    | base a =>
      have : MapeadorArchivo.lineaBase (entidadDe (e :: resto)) =
          e.nombre ++ ':' :: (a.render ++ ',' :: MapeadorArchivo.lineaBase (entidadDe resto)) := by
        simp [entidadDe, hv, MapeadorArchivo.lineaBase]
      rw [this] at hb
      simp at hb
    | nulo =>
      have : MapeadorArchivo.lineaBase (entidadDe (e :: resto)) =
          e.nombre ++ ':' :: (e.nombre ++ ',' :: MapeadorArchivo.lineaBase (entidadDe resto)) := by
        simp [entidadDe, hv, MapeadorArchivo.lineaBase]
      rw [this] at hb
      simp at hb
    | fecha d =>
      have : MapeadorArchivo.lineaBase (entidadDe (e :: resto)) =
          e.nombre ++ ':' :: (d ++ ',' :: MapeadorArchivo.lineaBase (entidadDe resto)) := by
        simp [entidadDe, hv, MapeadorArchivo.lineaBase]
      rw [this] at hb
      simp at hb

/-- Round trip of the reflective mapper, for a record satisfying the side
conditions (matching template shapes; attribute names non-empty and free of
the separator characters; string/date payloads free of the separator
characters; no attribute name occurring — under Python's substring test —
inside a record key emitted for a different attribute). -/
theorem mapeo_maestro (z : List Entrada)
    (hz : ∀ e ∈ z, formaOkB e = true ∧ nombreOkB e.nombre = true ∧ valorOkB e.valor = true)
    (hcol : paresSinColision z = true) :
    MapeadorArchivo.venir_desde_persistidor (plantillaDe z)
      (MapeadorArchivo.ir_a_persistidor (entidadDe z)) = some (restauradoDe z) := by
  unfold MapeadorArchivo.venir_desde_persistidor
  rw [division_ir z (fun e he => ⟨(hz e he).2.1, (hz e he).2.2⟩)]
  have hlinea : MapeadorArchivo.procRegistro (plantillaDe z)
      (MapeadorArchivo.lineaBase (entidadDe z)) = some (mediosDe z) := by
    unfold MapeadorArchivo.procRegistro
    by_cases hb : MapeadorArchivo.lineaBase (entidadDe z) = []
    · rw [if_pos hb, lineaBase_vacia z (fun e he => (hz e he).1) hb]
    · rw [if_neg hb, division_lineaBase z (fun e he => ⟨(hz e he).2.1, (hz e he).2.2⟩)]
      exact fold_tokens z hz hcol
  simp only [foldlOpt, hlinea]
  rw [foldlOpt_append, fold_cuerpos z hz hcol]
  rfl

/-! ### C3 — the reflective mapper round trip -/

/-- The claim's attribute scope: base-typed `int`/`str`/`float` values (the
template, freshly constructed from the entity's class, has the same type) or
lists of floats. -/
def formaC3B (e : Entrada) : Bool :=
  match e.plantilla, e.valor with
  | FieldVal.base (AtomVal.aint _), FieldVal.base (AtomVal.aint _) => true
  | FieldVal.base (AtomVal.astr _), FieldVal.base (AtomVal.astr _) => true
  | FieldVal.base (AtomVal.afloat _), FieldVal.base (AtomVal.afloat _) => true
  | FieldVal.flist _, FieldVal.flist _ => true
  | _, _ => false

theorem formaC3_ok (e : Entrada) (h : formaC3B e = true) : formaOkB e = true := by
  obtain ⟨n, tv, ev⟩ := e
  cases tv with
  | base a =>
    cases a <;> cases ev <;> (try rfl) <;>
      (first
        | (rename_i a2; cases a2 <;> first | rfl | exact absurd h (by simp [formaC3B]))
        | exact absurd h (by simp [formaC3B]))
  | nulo =>
    cases ev <;> first
      | (rename_i a2; cases a2 <;> exact absurd h (by simp [formaC3B]))
      | exact absurd h (by simp [formaC3B])
  | fecha d =>
    cases ev <;> first
      | (rename_i a2; cases a2 <;> exact absurd h (by simp [formaC3B]))
      | exact absurd h (by simp [formaC3B])
  | flist l =>
    cases ev <;> first
      | rfl
      | (rename_i a2; cases a2 <;> exact absurd h (by simp [formaC3B]))
      | exact absurd h (by simp [formaC3B])

/-- The counterexample record for C3 as stated: an entity with `int`
attributes `a = 1` and `ab = 2` and a fresh template of the same class. -/
def zContraC3 : List Entrada :=
  [⟨['a'], FieldVal.base (AtomVal.aint 0), FieldVal.base (AtomVal.aint 1)⟩,
   ⟨['a', 'b'], FieldVal.base (AtomVal.aint 0), FieldVal.base (AtomVal.aint 2)⟩]

/-- Claim C3 (as stated) is false: for the entity with int attributes
`a = 1`, `ab = 2` — within the claim's scope of base-typed attributes — the
round trip does not restore every base-typed attribute: the deserializer's
substring test (`atributo in sep_valor[0]`) lets the record `ab:2` overwrite
attribute `a`, so `a` comes back as `2`, not `1`. -/
theorem c3_mapeador_contraejemplo :
    (∀ e ∈ zContraC3, formaC3B e = true) ∧
    MapeadorArchivo.venir_desde_persistidor (plantillaDe zContraC3)
        (MapeadorArchivo.ir_a_persistidor (entidadDe zContraC3)) =
      some [(['a'], FieldVal.base (AtomVal.aint 2)),
            (['a', 'b'], FieldVal.base (AtomVal.aint 2))] ∧
    MapeadorArchivo.venir_desde_persistidor (plantillaDe zContraC3)
        (MapeadorArchivo.ir_a_persistidor (entidadDe zContraC3)) ≠
      some (restauradoDe zContraC3) := by
  refine ⟨by decide, by decide, by decide⟩

/-- Claim C3, amended: the reflective round trip restores every base-typed
attribute and appends the entity's non-`None` list elements in order,
provided additionally that attribute names are non-empty, avoid the
separator characters `,` `:` `\n`, string values avoid those characters too,
and no attribute name occurs as a substring of a record key emitted for a
different attribute. -/
theorem c3_mapeador_ida_vuelta (z : List Entrada)
    (hz : ∀ e ∈ z, formaC3B e = true ∧ nombreOkB e.nombre = true ∧ valorOkB e.valor = true)
    (hcol : paresSinColision z = true) :
    MapeadorArchivo.venir_desde_persistidor (plantillaDe z)
      (MapeadorArchivo.ir_a_persistidor (entidadDe z)) = some (restauradoDe z) :=
  mapeo_maestro z
    (fun e he => ⟨formaC3_ok e ((hz e he).1), (hz e he).2.1, (hz e he).2.2⟩) hcol

/-- A record within the amended C3 conditions: int, str, float and float-list
attributes with non-nested names; the float list contains a `None` hole. -/
def zTestigoC3 : List Entrada :=
  [⟨['e', 'd', 'a', 'd'], FieldVal.base (AtomVal.aint 0), FieldVal.base (AtomVal.aint (-7))⟩,
   ⟨['n', 'o', 'm'], FieldVal.base (AtomVal.astr []),
      FieldVal.base (AtomVal.astr ['a', 'n', 'a'])⟩,
   ⟨['p', 'e', 's', 'o'], FieldVal.base (AtomVal.afloat 0),
      FieldVal.base (AtomVal.afloat (7 / 2))⟩,
   ⟨['d', 'a', 't', 'o', 's'], FieldVal.flist [],
      FieldVal.flist [some 1, none, some (3 / 2)]⟩]

theorem c3_mapeador_ida_vuelta_testigo :
    ((∀ e ∈ zTestigoC3, formaC3B e = true ∧ nombreOkB e.nombre = true ∧
        valorOkB e.valor = true) ∧ paresSinColision zTestigoC3 = true) ∧
    MapeadorArchivo.venir_desde_persistidor (plantillaDe zTestigoC3)
      (MapeadorArchivo.ir_a_persistidor (entidadDe zTestigoC3)) =
        some (restauradoDe zTestigoC3) :=
  ⟨⟨by decide, by decide⟩, c3_mapeador_ida_vuelta zTestigoC3 (by decide) (by decide)⟩

/-! ### Substring facts for the señal record keys -/

theorem prefijo_division (a : List Char) : ∀ (x b : List Char), x <+: a ++ b →
    x <+: a ∨ ∃ y, x = a ++ y ∧ y <+: b := by
  induction a with
  | nil => intro x b h; exact Or.inr ⟨x, by simp, h⟩
  | cons c a2 ih =>
    intro x b h
    rcases List.prefix_cons_iff.mp h with h1 | ⟨t, rfl, ht⟩
    · subst h1
      exact Or.inl (List.nil_prefix)
    · rcases ih t b ht with h2 | ⟨y, rfl, hy⟩
      · exact Or.inl (List.prefix_cons_iff.mpr (Or.inr ⟨t, rfl, h2⟩))
      · exact Or.inr ⟨y, by simp, hy⟩

theorem infijo_division (a : List Char) : ∀ (x b : List Char), x <:+: a ++ b →
    x <:+: a ∨ x <:+: b ∨
      ∃ x1 x2, x = x1 ++ x2 ∧ x2 ≠ [] ∧ x1 <:+ a ∧ x2 <+: b := by
  induction a with
  | nil => intro x b h; exact Or.inr (Or.inl h)
  | cons c a2 ih =>
    intro x b h
    rcases List.infix_cons_iff.mp h with h1 | h1
    · rcases List.prefix_cons_iff.mp h1 with h2 | ⟨t, rfl, ht⟩
      · subst h2
        exact Or.inl List.nil_infix
      · rcases prefijo_division a2 t b ht with h3 | ⟨y, rfl, hy⟩
        · exact Or.inl ((List.prefix_cons_iff.mpr (Or.inr ⟨t, rfl, h3⟩)).isInfix)
        · by_cases hyn : y = []
          · subst hyn
            exact Or.inl (by simpa using List.infix_refl (c :: a2))
          · exact Or.inr (Or.inr ⟨c :: a2, y, by simp, hyn, List.suffix_refl _, hy⟩)
    · rcases ih x b h1 with h2 | h2 | ⟨x1, x2, rfl, hx2, hs, hp⟩
      · exact Or.inl (List.infix_cons h2)
      · exact Or.inr (Or.inl h2)
      · obtain ⟨t, ht⟩ := hs
        exact Or.inr (Or.inr ⟨x1, x2, rfl, hx2, ⟨c :: t, by simp [ht]⟩, hp⟩)

/-- A name with no `>` and no digits that does not occur in the list
attribute's name does not occur in any of its element keys `name>digits`. -/
theorem no_infijo_clave_lista (a n : List Char) (j : Nat)
    (ha1 : a ≠ []) (ha2 : '>' ∉ a) (ha3 : ∀ c ∈ a, esDigito c = false)
    (h4 : esInfijoB a n = false) : esInfijoB a (n ++ '>' :: natRender j) = false := by
  by_contra hcon
  have h5 : esInfijoB a (n ++ '>' :: natRender j) = true := by
    cases h : esInfijoB a (n ++ '>' :: natRender j) with
    | true => rfl
    | false => exact absurd h hcon
  have h6 := (esInfijoB_iff a _).mp h5
  rcases infijo_division n a ('>' :: natRender j) h6 with h7 | h7 | ⟨x1, x2, hx, hx2, hs, hp⟩
  · rw [(esInfijoB_iff a n).mpr h7] at h4
    cases h4
  · obtain ⟨c, resto, rfl⟩ : ∃ c resto, a = c :: resto := by
      cases a with
      | nil => exact absurd rfl ha1
      | cons c resto => exact ⟨c, resto, rfl⟩
    have hc := h7.subset (by simp : c ∈ c :: resto)
    rcases List.mem_cons.mp hc with h8 | h8
    · exact ha2 (by simp [h8])
    · have := natRender_digitos j c h8
      rw [ha3 c (by simp)] at this
      cases this
  · obtain ⟨c, resto2, rfl⟩ : ∃ c resto2, x2 = c :: resto2 := by
      cases x2 with
      | nil => exact absurd rfl hx2
      | cons c resto2 => exact ⟨c, resto2, rfl⟩
    rcases List.prefix_cons_iff.mp hp with h8 | ⟨t, het, ht⟩
    · cases h8
    · have hc : c = '>' := by injection het
      apply ha2
      rw [hx, hc]
      simp

/-! ### C2/C4 — the persistence contexts (src/persistidor_senial/contexto.py)

A context owns a directory (`recurso`); files in it are modelled as an
association list from file name to content, updated by prepending (a write
replaces what a later lookup sees, like overwriting the file). `recuperar` of
a missing file raises `IOError`, which the code catches and turns into
`None`. -/

def buscarArchivo (al : List (List Char × List Char)) (nombre : List Char) :
    Option (List Char) :=
  (al.find? (fun p => p.1 == nombre)).map (fun p => p.2)

/-- The concrete señal classes `ContextoArchivo.recuperar` can reconstruct
through `importlib`/`getattr`. -/
inductive ClaseSenial where
  | lista
  | pila
  | cola
deriving DecidableEq

def SenialAny.claseDe : SenialAny → ClaseSenial
  | .lista _ => ClaseSenial.lista
  | .pila _ => ClaseSenial.pila
  | .cola _ => ClaseSenial.cola

def nombreClase : ClaseSenial → List Char
  | ClaseSenial.lista => ['S', 'e', 'n', 'i', 'a', 'l', 'L', 'i', 's', 't', 'a']
  | ClaseSenial.pila => ['S', 'e', 'n', 'i', 'a', 'l', 'P', 'i', 'l', 'a']
  | ClaseSenial.cola => ['S', 'e', 'n', 'i', 'a', 'l', 'C', 'o', 'l', 'a']

def claseDeNombre (s : List Char) : Option ClaseSenial :=
  if s = nombreClase ClaseSenial.lista then some ClaseSenial.lista
  else if s = nombreClase ClaseSenial.pila then some ClaseSenial.pila
  else if s = nombreClase ClaseSenial.cola then some ClaseSenial.cola
  else none

def moduloSenial : List Char :=
  ['d', 'o', 'm', 'i', 'n', 'i', 'o', '_', 's', 'e', 'n', 'i', 'a', 'l', '.',
   's', 'e', 'n', 'i', 'a', 'l']

def cabezaClase : List Char := ['_', '_', 'c', 'l', 'a', 's', 's', '_', '_']

def prefijoClase : List Char := cabezaClase ++ [':']

/-- `__class__:module.ClassName` (without the trailing newline). -/
def cuerpoClase (cl : ClaseSenial) : List Char :=
  prefijoClase ++ moduloSenial ++ '.' :: nombreClase cl

def extDat : List Char := ['.', 'd', 'a', 't']

def nCampoFecha : List Char :=
  ['_', 'f', 'e', 'c', 'h', 'a', '_', 'a', 'd', 'q', 'u', 'i', 's', 'i', 'c', 'i', 'o', 'n']
def nCampoCantidad : List Char := ['_', 'c', 'a', 'n', 't', 'i', 'd', 'a', 'd']
def nCampoTamanio : List Char := ['_', 't', 'a', 'm', 'a', 'n', 'i', 'o']
def nCampoComentario : List Char := ['_', 'c', 'o', 'm', 'e', 'n', 't', 'a', 'r', 'i', 'o']
def nCampoId : List Char := ['_', 'i', 'd']
def nCampoCabeza : List Char := ['_', 'c', 'a', 'b', 'e', 'z', 'a']
def nCampoCola : List Char := ['_', 'c', 'o', 'l', 'a']
def nCampoValores : List Char := ['_', 'v', 'a', 'l', 'o', 'r', 'e', 's']

/-- `str(date)` of a set acquisition date, `None` otherwise. -/
def campoFecha : Option (List Char) → FieldVal
  | none => FieldVal.nulo
  | some d => FieldVal.fecha d

/-- `entidad.__dict__` of a señal, in the insertion order of `__init__`
(`SenialBase` fields first, then the subclass fields). -/
def registroDe : SenialAny → Registro
  | .lista s =>
    [(nCampoFecha, campoFecha s.fecha_adquisicion),
     (nCampoCantidad, FieldVal.base (AtomVal.aint (s.cantidad : Int))),
     (nCampoTamanio, FieldVal.base (AtomVal.aint (s.tamanio : Int))),
     (nCampoComentario, FieldVal.base (AtomVal.astr s.comentario)),
     (nCampoId, FieldVal.base (AtomVal.aint s.id)),
     (nCampoValores, FieldVal.flist (s.valores.map some))]
  | .pila s =>
    [(nCampoFecha, campoFecha s.fecha_adquisicion),
     (nCampoCantidad, FieldVal.base (AtomVal.aint (s.cantidad : Int))),
     (nCampoTamanio, FieldVal.base (AtomVal.aint (s.tamanio : Int))),
     (nCampoComentario, FieldVal.base (AtomVal.astr s.comentario)),
     (nCampoId, FieldVal.base (AtomVal.aint s.id)),
     (nCampoValores, FieldVal.flist (s.valores.map some))]
  | .cola s =>
    [(nCampoFecha, campoFecha s.fecha_adquisicion),
     (nCampoCantidad, FieldVal.base (AtomVal.aint (s.cantidad : Int))),
     (nCampoTamanio, FieldVal.base (AtomVal.aint (s.tamanio : Int))),
     (nCampoComentario, FieldVal.base (AtomVal.astr s.comentario)),
     (nCampoId, FieldVal.base (AtomVal.aint s.id)),
     (nCampoCabeza, FieldVal.base (AtomVal.aint (s.cabeza : Int))),
     (nCampoCola, FieldVal.base (AtomVal.aint (s.cola : Int))),
     (nCampoValores, FieldVal.flist s.valores)]

/-- `clase()` — reconstruction with the default constructor (`tamanio = 10`). -/
def plantillaSenial : ClaseSenial → SenialAny
  | ClaseSenial.lista => SenialAny.lista (SenialLista.crear 10)
  | ClaseSenial.pila => SenialAny.pila (SenialPila.crear 10)
  | ClaseSenial.cola => SenialAny.cola (SenialCola.crear 10)

structure ContextoArchivo where
  recurso : List Char
  almacen : List (List Char × List Char)
deriving DecidableEq

/-- `ContextoArchivo.persistir`: writes `__class__` metadata followed by the
mapper's serialization into `<id>.dat`. -/
def ContextoArchivo.persistir (c : ContextoArchivo) (entidad : SenialAny)
    (id_entidad : List Char) : ContextoArchivo :=
  { c with almacen :=
      (id_entidad ++ extDat,
        cuerpoClase entidad.claseDe ++ '\n' :: MapeadorArchivo.ir_a_persistidor
          (registroDe entidad)) :: c.almacen }

/-- `sep.join(partes)` — used to model `rsplit('.', 1)` via a full split
followed by re-joining all but the last part. -/
def junta (c : Char) : List (List Char) → List Char
  | [] => []
  | [x] => x
  | x :: y :: resto => x ++ c :: junta c (y :: resto)

/-- `lineas[0].strip().split(':', 1)[1]` then `rsplit('.', 1)` then
`importlib.import_module`/`getattr`: from the first line to the class.
Any failure (`ValueError` unpacking, `ImportError`, `AttributeError`) is
caught by `recuperar` and turns into `None`. -/
def ContextoArchivo.parsearClase (primera : List Char) : Option ClaseSenial :=
  if esPrefijoB prefijoClase primera then
    match splitOnChar '.' ((primera.dropWhile (fun ch => ch != ':')).drop 1) with
    | [] => none
    | [_] => none
    | p :: q :: resto =>
      if junta '.' ((p :: q :: resto).dropLast) = moduloSenial then
        claseDeNombre ((p :: q :: resto).getLastD [])
      else none
  else none

/-- `ContextoArchivo.recuperar` with no template entity: reads the file,
reconstructs a fresh instance from the `__class__` metadata, and feeds the
remaining lines to the mapper. The returned Python object is modelled by its
class together with its `__dict__`. -/
def ContextoArchivo.recuperar (c : ContextoArchivo) (id_entidad : List Char) :
    Option (ClaseSenial × Registro) :=
  match buscarArchivo c.almacen (id_entidad ++ extDat) with
  | none => none
  | some contenido =>
    if contenido = [] then none
    else
      match ContextoArchivo.parsearClase (contenido.takeWhile (fun ch => ch != '\n')) with
      | none => none
      | some cl =>
        (MapeadorArchivo.venir_desde_persistidor (registroDe (plantillaSenial cl))
          ((contenido.dropWhile (fun ch => ch != '\n')).drop 1)).map (fun r => (cl, r))

theorem buscarArchivo_cabeza (al : List (List Char × List Char)) (k v : List Char) :
    buscarArchivo ((k, v) :: al) k = some v := by
  simp [buscarArchivo, List.find?]

theorem takeWhile_corte (ch : Char) (a b : List Char) (ha : ∀ x ∈ a, x ≠ ch) :
    (a ++ ch :: b).takeWhile (fun x => x != ch) = a := by
  induction a with
  | nil => simp [List.takeWhile]
  | cons c resto ih =>
    have hc : c ≠ ch := ha c (by simp)
    simp only [List.cons_append, List.takeWhile_cons]
    have hc2 : (c != ch) = true := by simpa using hc
    rw [hc2]
    simp only [if_true]
    rw [ih (fun x hx => ha x (by simp [hx]))]

theorem dropWhile_corte (ch : Char) (a b : List Char) (ha : ∀ x ∈ a, x ≠ ch) :
    (a ++ ch :: b).dropWhile (fun x => x != ch) = ch :: b := by
  induction a with
  | nil => simp [List.dropWhile]
  | cons c resto ih =>
    have hc : c ≠ ch := ha c (by simp)
    simp only [List.cons_append, List.dropWhile_cons]
    have hc2 : (c != ch) = true := by simpa using hc
    rw [hc2]
    simp only [if_true]
    exact ih (fun x hx => ha x (by simp [hx]))

theorem parsearClase_cuerpo (cl : ClaseSenial) :
    ContextoArchivo.parsearClase (cuerpoClase cl) = some cl := by
  cases cl <;> decide

theorem sinColision_noflist (a b : Entrada) (hb : ∀ l, b.valor ≠ FieldVal.flist l)
    (h : esInfijoB a.nombre b.nombre = false) : sinColisionB a b = true := by
  unfold sinColisionB
  apply List.all_eq_true.mpr
  intro k hk
  cases hv : b.valor with
  | flist l => exact absurd hv (hb l)
  | base a2 => rw [hv] at hk; simp [clavesCampo] at hk; subst hk; simp [h]
  | nulo => rw [hv] at hk; simp [clavesCampo] at hk; subst hk; simp [h]
  | fecha d => rw [hv] at hk; simp [clavesCampo] at hk; subst hk; simp [h]

theorem sinColision_lista (a b : Entrada)
    (ha1 : a.nombre ≠ []) (ha2 : '>' ∉ a.nombre)
    (ha3 : ∀ c ∈ a.nombre, esDigito c = false)
    (h4 : esInfijoB a.nombre b.nombre = false) : sinColisionB a b = true := by
  unfold sinColisionB
  apply List.all_eq_true.mpr
  intro k hk
  cases hv : b.valor with
  | flist l =>
    rw [hv] at hk
    simp only [clavesCampo, List.mem_map, List.mem_range] at hk
    obtain ⟨j, hj, rfl⟩ := hk
    simp [no_infijo_clave_lista a.nombre b.nombre j ha1 ha2 ha3 h4]
  | base a2 => rw [hv] at hk; simp [clavesCampo] at hk; subst hk; simp [h4]
  | nulo => rw [hv] at hk; simp [clavesCampo] at hk; subst hk; simp [h4]
  | fecha d => rw [hv] at hk; simp [clavesCampo] at hk; subst hk; simp [h4]

/-- Collision freedom follows from name-level facts alone: non-empty names
without `>` or digits, pairwise not substrings of one another. -/
theorem pares_de_nombres (z : List Entrada)
    (hnd : ∀ e ∈ z, e.nombre ≠ [] ∧ '>' ∉ e.nombre ∧ ∀ c ∈ e.nombre, esDigito c = false)
    (hpair : z.Pairwise (fun a b => esInfijoB a.nombre b.nombre = false ∧
      esInfijoB b.nombre a.nombre = false)) :
    paresSinColision z = true := by
  induction z with
  | nil => rfl
  | cons e resto ih =>
    rcases List.pairwise_cons.mp hpair with ⟨hcab, hresto⟩
    have he := hnd e (by simp)
    unfold paresSinColision
    rw [Bool.and_eq_true]
    constructor
    · apply List.all_eq_true.mpr
      intro e2 he2
      have h2 := hcab e2 he2
      have he2nd := hnd e2 (by simp [he2])
      rw [Bool.and_eq_true]
      constructor
      · exact sinColision_lista e e2 he.1 he.2.1 he.2.2 h2.1
      · exact sinColision_lista e2 e he2nd.1 he2nd.2.1 he2nd.2.2 h2.2
    · exact ih (fun e2 h2 => hnd e2 (by simp [h2])) hresto

/-- The round-trip entries for a `SenialLista`: fresh template values from
`SenialLista(10)` against the persisted instance's values. -/
def zSenialLista (s : SenialLista) : List Entrada :=
  [⟨nCampoFecha, FieldVal.nulo, campoFecha s.fecha_adquisicion⟩,
   ⟨nCampoCantidad, FieldVal.base (AtomVal.aint 0),
      FieldVal.base (AtomVal.aint (s.cantidad : Int))⟩,
   ⟨nCampoTamanio, FieldVal.base (AtomVal.aint 10),
      FieldVal.base (AtomVal.aint (s.tamanio : Int))⟩,
   ⟨nCampoComentario, FieldVal.base (AtomVal.astr []),
      FieldVal.base (AtomVal.astr s.comentario)⟩,
   ⟨nCampoId, FieldVal.base (AtomVal.aint 0), FieldVal.base (AtomVal.aint s.id)⟩,
   ⟨nCampoValores, FieldVal.flist [], FieldVal.flist (s.valores.map some)⟩]

def zSenialPila (s : SenialPila) : List Entrada :=
  [⟨nCampoFecha, FieldVal.nulo, campoFecha s.fecha_adquisicion⟩,
   ⟨nCampoCantidad, FieldVal.base (AtomVal.aint 0),
      FieldVal.base (AtomVal.aint (s.cantidad : Int))⟩,
   ⟨nCampoTamanio, FieldVal.base (AtomVal.aint 10),
      FieldVal.base (AtomVal.aint (s.tamanio : Int))⟩,
   ⟨nCampoComentario, FieldVal.base (AtomVal.astr []),
      FieldVal.base (AtomVal.astr s.comentario)⟩,
   ⟨nCampoId, FieldVal.base (AtomVal.aint 0), FieldVal.base (AtomVal.aint s.id)⟩,
   ⟨nCampoValores, FieldVal.flist [], FieldVal.flist (s.valores.map some)⟩]

/-- What the claim expects `recuperar` to rebuild for a `SenialLista`
(`fecha_adquisicion` is not among the base-typed fields the claim lists; the
fresh template keeps it `None`). -/
def restauradoLista (s : SenialLista) : Registro :=
  [(nCampoFecha, FieldVal.nulo),
   (nCampoCantidad, FieldVal.base (AtomVal.aint (s.cantidad : Int))),
   (nCampoTamanio, FieldVal.base (AtomVal.aint (s.tamanio : Int))),
   (nCampoComentario, FieldVal.base (AtomVal.astr s.comentario)),
   (nCampoId, FieldVal.base (AtomVal.aint s.id)),
   (nCampoValores, FieldVal.flist (s.valores.map some))]

def restauradoPila (s : SenialPila) : Registro :=
  [(nCampoFecha, FieldVal.nulo),
   (nCampoCantidad, FieldVal.base (AtomVal.aint (s.cantidad : Int))),
   (nCampoTamanio, FieldVal.base (AtomVal.aint (s.tamanio : Int))),
   (nCampoComentario, FieldVal.base (AtomVal.astr s.comentario)),
   (nCampoId, FieldVal.base (AtomVal.aint s.id)),
   (nCampoValores, FieldVal.flist (s.valores.map some))]

theorem hz_zLista (s : SenialLista) (hcom : sinSeparadores s.comentario = true)
    (hfec : ∀ d, s.fecha_adquisicion = some d → sinSeparadores d = true) :
    ∀ e ∈ zSenialLista s, formaOkB e = true ∧ nombreOkB e.nombre = true ∧
      valorOkB e.valor = true := by
  intro e he
  simp only [zSenialLista, List.mem_cons, List.not_mem_nil, or_false] at he
  rcases he with rfl | rfl | rfl | rfl | rfl | rfl
  · refine ⟨?_, (by decide : nombreOkB nCampoFecha = true), ?_⟩
    · cases hf : s.fecha_adquisicion <;> simp [formaOkB, campoFecha]
    · cases hf : s.fecha_adquisicion with
      | none => rfl
      | some d => exact hfec d hf
  · exact ⟨rfl, (by decide : nombreOkB nCampoCantidad = true), rfl⟩
  · exact ⟨rfl, (by decide : nombreOkB nCampoTamanio = true), rfl⟩
  · exact ⟨rfl, (by decide : nombreOkB nCampoComentario = true), hcom⟩
  · exact ⟨rfl, (by decide : nombreOkB nCampoId = true), rfl⟩
  · exact ⟨rfl, (by decide : nombreOkB nCampoValores = true), rfl⟩

theorem hz_zPila (s : SenialPila) (hcom : sinSeparadores s.comentario = true)
    (hfec : ∀ d, s.fecha_adquisicion = some d → sinSeparadores d = true) :
    ∀ e ∈ zSenialPila s, formaOkB e = true ∧ nombreOkB e.nombre = true ∧
      valorOkB e.valor = true := by
  intro e he
  simp only [zSenialPila, List.mem_cons, List.not_mem_nil, or_false] at he
  rcases he with rfl | rfl | rfl | rfl | rfl | rfl
  · refine ⟨?_, (by decide : nombreOkB nCampoFecha = true), ?_⟩
    · cases hf : s.fecha_adquisicion <;> simp [formaOkB, campoFecha]
    · cases hf : s.fecha_adquisicion with
      | none => rfl
      | some d => exact hfec d hf
  · exact ⟨rfl, (by decide : nombreOkB nCampoCantidad = true), rfl⟩
  · exact ⟨rfl, (by decide : nombreOkB nCampoTamanio = true), rfl⟩
  · exact ⟨rfl, (by decide : nombreOkB nCampoComentario = true), hcom⟩
  · exact ⟨rfl, (by decide : nombreOkB nCampoId = true), rfl⟩
  · exact ⟨rfl, (by decide : nombreOkB nCampoValores = true), rfl⟩

theorem pairwise_por_nombre (z : List Entrada) (Q : List Char → List Char → Prop)
    (h : (z.map Entrada.nombre).Pairwise Q) :
    z.Pairwise (fun a b => Q a.nombre b.nombre) := by
  induction z with
  | nil => exact List.Pairwise.nil
  | cons e resto ih =>
    rcases List.pairwise_cons.mp h with ⟨hcab, hresto⟩
    exact List.Pairwise.cons
      (fun b hb => hcab b.nombre (List.mem_map_of_mem Entrada.nombre hb)) (ih hresto)

theorem hcol_zLista (s : SenialLista) : paresSinColision (zSenialLista s) = true := by
  apply pares_de_nombres
  · intro e he
    simp only [zSenialLista, List.mem_cons, List.not_mem_nil, or_false] at he
    rcases he with rfl | rfl | rfl | rfl | rfl | rfl
    · exact (by decide : nCampoFecha ≠ [] ∧ '>' ∉ nCampoFecha ∧
        ∀ c ∈ nCampoFecha, esDigito c = false)
    · exact (by decide : nCampoCantidad ≠ [] ∧ '>' ∉ nCampoCantidad ∧
        ∀ c ∈ nCampoCantidad, esDigito c = false)
    · exact (by decide : nCampoTamanio ≠ [] ∧ '>' ∉ nCampoTamanio ∧
        ∀ c ∈ nCampoTamanio, esDigito c = false)
    · exact (by decide : nCampoComentario ≠ [] ∧ '>' ∉ nCampoComentario ∧
        ∀ c ∈ nCampoComentario, esDigito c = false)
    · exact (by decide : nCampoId ≠ [] ∧ '>' ∉ nCampoId ∧
        ∀ c ∈ nCampoId, esDigito c = false)
    · exact (by decide : nCampoValores ≠ [] ∧ '>' ∉ nCampoValores ∧
        ∀ c ∈ nCampoValores, esDigito c = false)
  · have hmap : (zSenialLista s).map Entrada.nombre =
        [nCampoFecha, nCampoCantidad, nCampoTamanio, nCampoComentario, nCampoId,
          nCampoValores] := rfl
    exact pairwise_por_nombre _
      (fun x y => esInfijoB x y = false ∧ esInfijoB y x = false)
      (by rw [hmap]; decide)

theorem hcol_zPila (s : SenialPila) : paresSinColision (zSenialPila s) = true := by
  apply pares_de_nombres
  · intro e he
    simp only [zSenialPila, List.mem_cons, List.not_mem_nil, or_false] at he
    rcases he with rfl | rfl | rfl | rfl | rfl | rfl
    · exact (by decide : nCampoFecha ≠ [] ∧ '>' ∉ nCampoFecha ∧
        ∀ c ∈ nCampoFecha, esDigito c = false)
    · exact (by decide : nCampoCantidad ≠ [] ∧ '>' ∉ nCampoCantidad ∧
        ∀ c ∈ nCampoCantidad, esDigito c = false)
    · exact (by decide : nCampoTamanio ≠ [] ∧ '>' ∉ nCampoTamanio ∧
        ∀ c ∈ nCampoTamanio, esDigito c = false)
    · exact (by decide : nCampoComentario ≠ [] ∧ '>' ∉ nCampoComentario ∧
        ∀ c ∈ nCampoComentario, esDigito c = false)
    · exact (by decide : nCampoId ≠ [] ∧ '>' ∉ nCampoId ∧
        ∀ c ∈ nCampoId, esDigito c = false)
    · exact (by decide : nCampoValores ≠ [] ∧ '>' ∉ nCampoValores ∧
        ∀ c ∈ nCampoValores, esDigito c = false)
  · have hmap : (zSenialPila s).map Entrada.nombre =
        [nCampoFecha, nCampoCantidad, nCampoTamanio, nCampoComentario, nCampoId,
          nCampoValores] := rfl
    exact pairwise_por_nombre _
      (fun x y => esInfijoB x y = false ∧ esInfijoB y x = false)
      (by rw [hmap]; decide)

theorem venir_zLista (s : SenialLista) (hcom : sinSeparadores s.comentario = true)
    (hfec : ∀ d, s.fecha_adquisicion = some d → sinSeparadores d = true) :
    MapeadorArchivo.venir_desde_persistidor (registroDe (plantillaSenial ClaseSenial.lista))
      (MapeadorArchivo.ir_a_persistidor (registroDe (SenialAny.lista s))) =
      some (restauradoLista s) := by
  have h := mapeo_maestro (zSenialLista s) (hz_zLista s hcom hfec) (hcol_zLista s)
  have hrest : restauradoDe (zSenialLista s) = restauradoLista s := by
    cases hf : s.fecha_adquisicion <;>
      simp [zSenialLista, restauradoDe, restauradoCampo, campoFecha, hf, restauradoLista,
        List.filterMap_map]
  rw [hrest] at h
  exact h

theorem venir_zPila (s : SenialPila) (hcom : sinSeparadores s.comentario = true)
    (hfec : ∀ d, s.fecha_adquisicion = some d → sinSeparadores d = true) :
    MapeadorArchivo.venir_desde_persistidor (registroDe (plantillaSenial ClaseSenial.pila))
      (MapeadorArchivo.ir_a_persistidor (registroDe (SenialAny.pila s))) =
      some (restauradoPila s) := by
  have h := mapeo_maestro (zSenialPila s) (hz_zPila s hcom hfec) (hcol_zPila s)
  have hrest : restauradoDe (zSenialPila s) = restauradoPila s := by
    cases hf : s.fecha_adquisicion <;>
      simp [zSenialPila, restauradoDe, restauradoCampo, campoFecha, hf, restauradoPila,
        List.filterMap_map]
  rw [hrest] at h
  exact h

/-- Attribute lookup in a recovered object's `__dict__`. -/
def buscarCampo (r : Registro) (n : List Char) : Option FieldVal :=
  (r.find? (fun p => p.1 == n)).map (fun p => p.2)

/-- The empty file store used by the concrete C2 examples. -/
def contextoVacio : ContextoArchivo := ⟨['d'], []⟩

/-- A `SenialLista` whose description contains a comma. -/
def senialComa : SenialLista := ⟨none, 1, 5, ['a', ',', 'b'], 0, [1]⟩

/-- A wrapped `SenialCola` (head at index 1): logical contents 2, 3, 4, but
the physical array is `[4, 2, 3]`. -/
def senialRotada : SenialCola := ⟨none, 3, 3, [], 0, 1, 1, [some 4, some 2, some 3]⟩

/-- Shape summary of a recovered list attribute: total length and number of
non-`None` entries. -/
def resumenValores (r : Registro) : Option (Nat × Nat) :=
  match buscarCampo r nCampoValores with
  | some (FieldVal.flist l) => some (l.length, (l.filterMap id).length)
  | _ => none

/-- Claim C2 (as stated) is false on two concrete señales.
(1) For a `SenialLista` with `comentario = "a,b"`, the recovered object's
`_comentario` is `"a"`: the comma inside the value splits the serialized
record, so the claim's base-field equality fails.
(2) For a wrapped `SenialCola` (physical array `[4, 2, 3]`, logical order
`2, 3, 4`), the recovered `_valores` is the fresh template's ten `None`
placeholders followed by `4, 2, 3` — the serializer walks the raw array, so
the claim's "non-None values in the same logical order" fails as well. -/
theorem c2_contexto_archivo_contraejemplo :
    ((contextoVacio.persistir (SenialAny.lista senialComa) ['7']).recuperar ['7']).map
        (fun p => buscarCampo p.2 nCampoComentario) =
      some (some (FieldVal.base (AtomVal.astr ['a']))) ∧
    senialComa.comentario = ['a', ',', 'b'] ∧
    ((contextoVacio.persistir (SenialAny.cola senialRotada) ['8']).recuperar ['8']).map
        (fun p => resumenValores p.2) = some (some (13, 3)) ∧
    ((List.range senialRotada.cantidad).filterMap senialRotada.obtener_valor).length = 3 ∧
    (List.range senialRotada.cantidad).filterMap senialRotada.obtener_valor = [2, 3, 4] := by
  refine ⟨by decide, by decide, by decide, by decide, by decide⟩

/-- Claim C2, amended: the text-file round trip `recuperar ∘ persistir`
reconstructs an object of the same concrete class with equal base-typed
fields (`_cantidad`, `_tamanio`, `_comentario`, `_id`) and the values
appended in order — for `SenialLista` and `SenialPila` señales whose
`comentario` (and rendered acquisition date, if set) contain none of the
serializer's separator characters `,` `:` `\n`. (For `SenialCola` the
recovered list holds the template's placeholders plus the physical-order
values, and a comma inside `comentario` corrupts the parse, as the
counterexample shows.) -/
theorem c2_contexto_archivo_ida_vuelta (c1 c2 : ContextoArchivo)
    (sl : SenialLista) (sp : SenialPila) (id1 id2 : List Char)
    (hcom1 : sinSeparadores sl.comentario = true)
    (hfec1 : ∀ d, sl.fecha_adquisicion = some d → sinSeparadores d = true)
    (hcom2 : sinSeparadores sp.comentario = true)
    (hfec2 : ∀ d, sp.fecha_adquisicion = some d → sinSeparadores d = true) :
    (c1.persistir (SenialAny.lista sl) id1).recuperar id1 =
      some (ClaseSenial.lista, restauradoLista sl) ∧
    (c2.persistir (SenialAny.pila sp) id2).recuperar id2 =
      some (ClaseSenial.pila, restauradoPila sp) := by
  have hT : ∀ x ∈ cuerpoClase ClaseSenial.lista, x ≠ '\n' := by decide
  have hTP : ∀ x ∈ cuerpoClase ClaseSenial.pila, x ≠ '\n' := by decide
  constructor
  · unfold ContextoArchivo.persistir ContextoArchivo.recuperar
    dsimp only
    rw [show (SenialAny.lista sl).claseDe = ClaseSenial.lista from rfl]
    rw [buscarArchivo_cabeza]
    dsimp only
    rw [if_neg (by simp)]
    rw [takeWhile_corte '\n' _ _ hT, parsearClase_cuerpo]
    dsimp only
    rw [dropWhile_corte '\n' _ _ hT]
    rw [show (('\n' :: MapeadorArchivo.ir_a_persistidor
      (registroDe (SenialAny.lista sl))).drop 1) =
      MapeadorArchivo.ir_a_persistidor (registroDe (SenialAny.lista sl)) from rfl]
    rw [venir_zLista sl hcom1 hfec1]
    rfl
  · unfold ContextoArchivo.persistir ContextoArchivo.recuperar
    dsimp only
    rw [show (SenialAny.pila sp).claseDe = ClaseSenial.pila from rfl]
    rw [buscarArchivo_cabeza]
    dsimp only
    rw [if_neg (by simp)]
    rw [takeWhile_corte '\n' _ _ hTP, parsearClase_cuerpo]
    dsimp only
    rw [dropWhile_corte '\n' _ _ hTP]
    rw [show (('\n' :: MapeadorArchivo.ir_a_persistidor
      (registroDe (SenialAny.pila sp))).drop 1) =
      MapeadorArchivo.ir_a_persistidor (registroDe (SenialAny.pila sp)) from rfl]
    rw [venir_zPila sp hcom2 hfec2]
    rfl

/-- Witness for the amended C2 at concrete señales. -/
theorem c2_contexto_archivo_ida_vuelta_testigo :
    (contextoVacio.persistir (SenialAny.lista
        ⟨some ['2', '0', '2', '5', '-', '0', '1', '-', '0', '2'], 2, 5,
          ['h', 'o', 'l', 'a'], -3, [1, 3 / 2]⟩) ['7']).recuperar ['7'] =
      some (ClaseSenial.lista, restauradoLista
        ⟨some ['2', '0', '2', '5', '-', '0', '1', '-', '0', '2'], 2, 5,
          ['h', 'o', 'l', 'a'], -3, [1, 3 / 2]⟩) ∧
    (contextoVacio.persistir (SenialAny.pila
        ⟨none, 1, 10, [], 4, [5]⟩) ['9']).recuperar ['9'] =
      some (ClaseSenial.pila, restauradoPila ⟨none, 1, 10, [], 4, [5]⟩) :=
  c2_contexto_archivo_ida_vuelta contextoVacio contextoVacio
    ⟨some ['2', '0', '2', '5', '-', '0', '1', '-', '0', '2'], 2, 5,
      ['h', 'o', 'l', 'a'], -3, [1, 3 / 2]⟩
    ⟨none, 1, 10, [], 4, [5]⟩ ['7'] ['9']
    (by decide) (by decide) (by decide) (by decide)

/-! ### C4 — ContextoPickle -/

/-- `ContextoPickle`: files hold pickled entities. `pickle.dump`/`pickle.load`
round-trips these plain-attribute objects faithfully (a Python stdlib
guarantee), so the store maps file names directly to the persisted entity;
a write prepends (overwriting what a lookup sees), and reading a missing
file raises `IOError`, caught and turned into `None`. -/
structure ContextoPickle where
  recurso : List Char
  almacen : List (List Char × SenialAny)
deriving DecidableEq

def extPickle : List Char := ['.', 'p', 'i', 'c', 'k', 'l', 'e']

/-- `ContextoPickle.persistir`: `pickle.dump(entidad)` into `<id>.pickle`. -/
def ContextoPickle.persistir (c : ContextoPickle) (entidad : SenialAny)
    (id_entidad : List Char) : ContextoPickle :=
  { c with almacen := (id_entidad ++ extPickle, entidad) :: c.almacen }

/-- `ContextoPickle.recuperar`: `pickle.load` from `<id>.pickle`, `None` when
the file is missing. -/
def ContextoPickle.recuperar (c : ContextoPickle) (id_entidad : List Char) :
    Option SenialAny :=
  ((c.almacen.find? (fun p => p.1 == id_entidad ++ extPickle)).map (fun p => p.2))

def ContextoPickle.crear (recurso : List Char) : ContextoPickle := ⟨recurso, []⟩

/-- Run a list of `persistir` calls against a context. -/
def ContextoPickle.persistirTodos (c : ContextoPickle) :
    List (SenialAny × List Char) → ContextoPickle
  | [] => c
  | (e, id) :: resto => ContextoPickle.persistirTodos (c.persistir e id) resto

theorem persistirTodos_busca (ops : List (SenialAny × List Char)) :
    ∀ (c : ContextoPickle) (id : List Char),
    (∀ par ∈ ops, par.2 ≠ id) →
    (ContextoPickle.persistirTodos c ops).recuperar id = c.recuperar id := by
  induction ops with
  | nil => intro c id _; rfl
  | cons par resto ih =>
    intro c id h
    obtain ⟨e, id2⟩ := par
    have hne : id2 ≠ id := h (e, id2) (by simp)
    simp only [ContextoPickle.persistirTodos]
    rw [ih (c.persistir e id2) id (fun p hp => h p (by simp [hp]))]
    simp only [ContextoPickle.recuperar, ContextoPickle.persistir, List.find?]
    have hbeq : (id2 ++ extPickle == id ++ extPickle) = false := by
      rw [beq_eq_false_iff_ne]
      intro he
      exact hne (List.append_inj_left' he rfl)
    rw [hbeq]

/-- Claim C4: after `ContextoPickle.persistir(e, id)`, `recuperar(id)` returns
an object equal to `e` (pickle reconstructs the same class with equal field
values, modelled as the entity itself); and `recuperar` of an identifier that
was never persisted (a run of `persistir` calls none of which used it,
starting from a fresh context) returns `None` rather than raising. -/
theorem c4_contexto_pickle (c : ContextoPickle) (e : SenialAny) (id : List Char)
    (recurso : List Char) (ops : List (SenialAny × List Char)) (id2 : List Char)
    (hnunca : ∀ par ∈ ops, par.2 ≠ id2) :
    (c.persistir e id).recuperar id = some e ∧
    (ContextoPickle.persistirTodos (ContextoPickle.crear recurso) ops).recuperar id2 =
      none := by
  constructor
  · simp [ContextoPickle.persistir, ContextoPickle.recuperar, List.find?]
  · rw [persistirTodos_busca ops (ContextoPickle.crear recurso) id2 hnunca]
    rfl

/-- Witness for C4: store two señales, read one back, and probe an identifier
that was never used. -/
theorem c4_contexto_pickle_testigo :
    ((ContextoPickle.crear ['d']).persistir (SenialAny.lista (SenialLista.crear 3))
        ['1']).recuperar ['1'] = some (SenialAny.lista (SenialLista.crear 3)) ∧
    (ContextoPickle.persistirTodos (ContextoPickle.crear ['d'])
        [(SenialAny.lista (SenialLista.crear 3), ['1']),
         (SenialAny.cola (SenialCola.crear 2), ['2'])]).recuperar ['9'] = none := by
  constructor
  · exact (c4_contexto_pickle (ContextoPickle.crear ['d'])
      (SenialAny.lista (SenialLista.crear 3)) ['1'] ['d'] [] ['9'] (by simp)).1
  · exact (c4_contexto_pickle (ContextoPickle.crear ['d'])
      (SenialAny.lista (SenialLista.crear 3)) ['1'] ['d']
      [(SenialAny.lista (SenialLista.crear 3), ['1']),
       (SenialAny.cola (SenialCola.crear 2), ['2'])] ['9'] (by decide)).2

/-! ### C5 — orden de etapas de Lanzador.ejecutar -/

/-- Pipeline stages observable in `Lanzador.ejecutar`. -/
inductive Etapa where
  | adquisicion
  | persistencia
  | procesamiento
  | recuperacion
  | visualizacion
deriving DecidableEq

/-- Straight-line trace of the stage-relevant calls of `Lanzador.ejecutar`, in
source order: `adquisidor.leer_senial()`; `repo_adquisicion.guardar(...)`;
`procesador.procesar(...)`; `repo_procesamiento.guardar(...)`;
`repo_adquisicion.obtener(...)`; `repo_procesamiento.obtener(...)`;
`visualizador.mostrar_datos(...)` twice. -/
def Lanzador.trazaEjecutar : List Etapa :=
  [Etapa.adquisicion, Etapa.persistencia, Etapa.procesamiento, Etapa.persistencia,
   Etapa.recuperacion, Etapa.recuperacion, Etapa.visualizacion, Etapa.visualizacion]

/-- Counterexample to claim C5 as stated: in `Lanzador.ejecutar` the first
persistence step (index 1, `repo_adquisicion.guardar`) comes before the first
visualization step (index 6), and no visualization occurs before it — so the
visualization step does not precede the persistence step; the actual order is
acquisition, persistence, processing, persistence, recovery, visualization. -/
theorem c5_lanzador_contraejemplo :
    Lanzador.trazaEjecutar.findIdx (fun e => e == Etapa.persistencia) = 1 ∧
    Lanzador.trazaEjecutar.findIdx (fun e => e == Etapa.visualizacion) = 6 ∧
    Etapa.visualizacion ∉ Lanzador.trazaEjecutar.take 6 ∧
    Etapa.persistencia ∈ Lanzador.trazaEjecutar.take 6 := by decide

/-- Claim C5 (amended): in every run of `Lanzador.ejecutar` the acquisition
step precedes the processing step and the processing step precedes the
visualization steps, but the persistence steps precede — not follow — every
visualization step. -/
theorem c5_lanzador_orden :
    (Lanzador.trazaEjecutar.findIdx (fun e => e == Etapa.adquisicion) <
     Lanzador.trazaEjecutar.findIdx (fun e => e == Etapa.procesamiento)) ∧
    (Lanzador.trazaEjecutar.findIdx (fun e => e == Etapa.procesamiento) <
     Lanzador.trazaEjecutar.findIdx (fun e => e == Etapa.visualizacion)) ∧
    (∀ i j : Fin Lanzador.trazaEjecutar.length,
      Lanzador.trazaEjecutar.get i = Etapa.persistencia →
      Lanzador.trazaEjecutar.get j = Etapa.visualizacion → (i : Nat) < (j : Nat)) := by
  decide

/-- Witness for C5: the persistence step at index 1 precedes the visualization
step at index 6. -/
theorem c5_lanzador_orden_testigo :
    Lanzador.trazaEjecutar.get ⟨1, by decide⟩ = Etapa.persistencia ∧
    Lanzador.trazaEjecutar.get ⟨6, by decide⟩ = Etapa.visualizacion ∧
    (1 : Nat) < 6 :=
  ⟨by decide, by decide,
   c5_lanzador_orden.2.2 ⟨1, by decide⟩ ⟨6, by decide⟩ (by decide) (by decide)⟩
